import Mathlib

/-!
Verification of the text-transformation utility module
(`server/utils/text_utils.go`) against its natural-language specification.

Strings are modelled as lists of Unicode code points (`Str := List Nat`),
matching Go's `for i, r := range s` rune iteration.  The Unicode
classification and mapping functions (`unicode.IsLetter`, `IsNumber`,
`IsUpper`, `IsLower`, `IsDigit`, `IsSpace`, `ToUpper`, `ToLower`,
`ToTitle`) are total computable functions that implement the Unicode
tables restricted to the Basic Latin and Latin-1 Supplement blocks
(U+0000..U+00FF) plus U+0178 and the standard Greek letter ranges
(U+0391..U+03A9, U+03B1..U+03C9); on every code point of that subset they
agree with the full Unicode tables used by Go, and outside it they
classify as "no property" / map identically.  All concrete inputs used in
theorems below stay inside the covered subset.
-/

/-- Strings as sequences of Unicode code points (Go runes). -/
abbrev Str := List Nat

/-- Code points of a Lean string literal, used to write concrete inputs. -/
def strLit (s : String) : Str := s.data.map Char.toNat

/-- Model of Go `unicode.IsUpper` on the covered subset: ASCII `A`-`Z`,
Latin-1 `À`-`Ö` and `Ø`-`Þ`, `Ÿ` (U+0178), Greek capitals `Α`-`Ρ` and
`Σ`-`Ω`. -/
def isUpperCP (n : Nat) : Bool :=
  decide ((65 ≤ n ∧ n ≤ 90) ∨ (192 ≤ n ∧ n ≤ 214) ∨ (216 ≤ n ∧ n ≤ 222) ∨
    n = 376 ∨ (913 ≤ n ∧ n ≤ 929) ∨ (931 ≤ n ∧ n ≤ 937))

/-- Model of Go `unicode.IsLower` on the covered subset: ASCII `a`-`z`,
`µ` (U+00B5), `ß`-`ö`, `ø`-`ÿ`, Greek small letters `α`-`ω` (which
include `ς`). -/
def isLowerCP (n : Nat) : Bool :=
  decide ((97 ≤ n ∧ n ≤ 122) ∨ n = 181 ∨ (223 ≤ n ∧ n ≤ 246) ∨
    (248 ≤ n ∧ n ≤ 255) ∨ (945 ≤ n ∧ n ≤ 969))

/-- Model of Go `unicode.IsLetter` on the covered subset: the cased
letters above plus the Latin-1 `Lo` letters `ª` (U+00AA) and `º`
(U+00BA). -/
def isLetterCP (n : Nat) : Bool :=
  isUpperCP n || isLowerCP n || decide (n = 170 ∨ n = 186)

/-- Model of Go `unicode.IsDigit` (category `Nd`); in the covered subset
these are exactly the ASCII digits. -/
def isDigitCP (n : Nat) : Bool := decide (48 ≤ n ∧ n ≤ 57)

/-- Model of Go `unicode.IsNumber` (category `N`) on the covered subset:
ASCII digits plus the Latin-1 `No` characters `²³¹¼½¾`. -/
def isNumberCP (n : Nat) : Bool :=
  isDigitCP n || decide (n = 178 ∨ n = 179 ∨ n = 185 ∨ n = 188 ∨ n = 189 ∨ n = 190)

/-- Model of Go `unicode.IsSpace` on the covered subset: `\t`-`\r`,
space, NEL (U+0085) and NBSP (U+00A0). -/
def isSpaceCP (n : Nat) : Bool :=
  decide (n = 32 ∨ (9 ≤ n ∧ n ≤ 13) ∨ n = 133 ∨ n = 160)

/-- Model of Go `unicode.ToUpper` (simple case mapping) on the covered
subset.  Notable points: `ß` (U+00DF) has no simple uppercase mapping,
`µ` (U+00B5) maps to Greek `Μ` (U+039C), `ÿ` (U+00FF) maps to `Ÿ`
(U+0178), `ς` (U+03C2) maps to `Σ` (U+03A3). -/
def toUpperCP (n : Nat) : Nat :=
  if 97 ≤ n ∧ n ≤ 122 then n - 32
  else if n = 181 then 924
  else if (224 ≤ n ∧ n ≤ 246) ∨ (248 ≤ n ∧ n ≤ 254) then n - 32
  else if n = 255 then 376
  else if n = 962 then 931
  else if (945 ≤ n ∧ n ≤ 961) ∨ (963 ≤ n ∧ n ≤ 969) then n - 32
  else n

/-- Model of Go `unicode.ToLower` (simple case mapping) on the covered
subset. -/
def toLowerCP (n : Nat) : Nat :=
  if 65 ≤ n ∧ n ≤ 90 then n + 32
  else if (192 ≤ n ∧ n ≤ 214) ∨ (216 ≤ n ∧ n ≤ 222) then n + 32
  else if n = 376 then 255
  else if (913 ≤ n ∧ n ≤ 929) ∨ (931 ≤ n ∧ n ≤ 937) then n + 32
  else n

/-- Model of Go `unicode.ToTitle`: on every code point of the covered
subset the title-case mapping coincides with the uppercase mapping. -/
def toTitleCP (n : Nat) : Nat := toUpperCP n

/-- Number of bytes of the UTF-8 encoding of a code point (Go
`utf8.RuneLen` for valid runes). -/
def utf8Size (n : Nat) : Nat :=
  if n < 128 then 1 else if n < 2048 then 2 else if n < 65536 then 3 else 4

/-- Byte length of the UTF-8 encoding of a string: this is what Go's
`len(s)` returns on a `string`. -/
def utf8Len (s : Str) : Nat := (s.map utf8Size).sum

/-- Last byte of the UTF-8 encoding of a code point: the code point
itself below U+0080, otherwise the trailing continuation byte
`0x80 + (n mod 64)`. -/
def utf8LastByte (n : Nat) : Nat := if n < 128 then n else 128 + n % 64

/-- Model of Go `strings.ToLower` (rune-wise simple lowercasing). -/
def lowerStr (s : Str) : Str := s.map toLowerCP

/-- Model of Go `strings.ToUpper` (rune-wise simple uppercasing). -/
def upperStr (s : Str) : Str := s.map toUpperCP

/-- Helper of `splitNl`: prepend a code point to the first segment. -/
def consHead (c : Nat) : List Str → List Str
  | [] => [[c]]
  | h :: t => (c :: h) :: t

/-- Model of Go `strings.Split(text, "\n")`: segments between newline
characters; the empty string yields one empty segment. -/
def splitNl : Str → List Str
  | [] => [[]]
  | c :: cs => if c = 10 then [] :: splitNl cs else consHead c (splitNl cs)

/-- Model of Go `strings.Join(lines, "\n")`. -/
def joinNl (ls : List Str) : Str := List.intercalate [10] ls

/-- Word character test of `splitWords`: Go
`unicode.IsLetter(r) || unicode.IsNumber(r)`. -/
def wordCharCP (n : Nat) : Bool := isLetterCP n || isNumberCP n

/-- CamelCase hump test of `splitWords`: Go
`i > 0 && unicode.IsUpper(r) && unicode.IsLower(rune(s[i-1]))`.
The previous *byte* `s[i-1]` is the last UTF-8 byte of the previous
rune, zero-extended to a rune. -/
def humpBoundary (prev : Option Nat) (r : Nat) : Bool :=
  match prev with
  | none => false
  | some p => isUpperCP r && isLowerCP (utf8LastByte p)

/-- Scanning loop of Go `splitWords`: `prev` is the previously scanned
rune (`none` at the start, so that `i > 0` fails), `acc` is the
`currentWord` accumulator. -/
def splitWordsAux (prev : Option Nat) (acc : Str) : Str → List Str
  | [] => if acc = [] then [] else [acc]
  | r :: rest =>
    if wordCharCP r then
      if humpBoundary prev r && decide (acc ≠ []) then
        acc :: splitWordsAux (some r) [r] rest
      else
        splitWordsAux (some r) (acc ++ [r]) rest
    else
      if acc = [] then splitWordsAux (some r) [] rest
      else acc :: splitWordsAux (some r) [] rest

/-- Model of Go `splitWords` from `text_utils.go`. -/
def splitWords (s : Str) : List Str := splitWordsAux none [] s

/-- Model of Go `strings.isSeparator`: below U+0080 everything except
ASCII alphanumerics and `_`; above, letters and decimal digits are not
separators and the remaining runes fall through to
`return unicode.IsSpace(r)` — so a non-ASCII rune that is neither a
letter, a digit nor a space (such as `¹`, category `No`) is *not* a
separator. -/
def titleIsSep (n : Nat) : Bool :=
  if n ≤ 127 then
    !(decide ((48 ≤ n ∧ n ≤ 57) ∨ (97 ≤ n ∧ n ≤ 122) ∨ (65 ≤ n ∧ n ≤ 90) ∨ n = 95))
  else if isLetterCP n || isDigitCP n then false
  else isSpaceCP n

/-- Mapping loop of Go `strings.Title`: a rune is title-cased exactly
when the previous rune is a separator; `prev` starts as a space. -/
def stringsTitleAux (prev : Nat) : Str → Str
  | [] => []
  | c :: cs => (if titleIsSep prev then toTitleCP c else c) :: stringsTitleAux c cs

/-- Model of Go `strings.Title`. -/
def stringsTitle (s : Str) : Str := stringsTitleAux 32 s

/-- Model of `toCamelCase` from `text_utils.go`: lowercase the first
word, then append `strings.Title(strings.ToLower(word))` for each later
word. -/
def toCamelCase (s : Str) : Str :=
  match splitWords s with
  | [] => []
  | w :: ws => lowerStr w ++ (ws.map (fun w' => stringsTitle (lowerStr w'))).flatten

/-- Model of `toPascalCase` from `text_utils.go`. -/
def toPascalCase (s : Str) : Str :=
  ((splitWords s).map (fun w => stringsTitle (lowerStr w))).flatten

/-- Model of `toSnakeCase` from `text_utils.go`. -/
def toSnakeCase (s : Str) : Str :=
  List.intercalate [95] ((splitWords s).map lowerStr)

/-- Model of `toKebabCase` from `text_utils.go`. -/
def toKebabCase (s : Str) : Str :=
  List.intercalate [45] ((splitWords s).map lowerStr)

/-- Model of `toConstantCase` from `text_utils.go`. -/
def toConstantCase (s : Str) : Str :=
  List.intercalate [95] ((splitWords s).map upperStr)

/-- Model of `ConvertCase` from `text_utils.go`: dispatch on the style
tag, defaulting to the identity. -/
def ConvertCase (s : Str) (caseType : String) : Str :=
  if caseType = "camelCase" then toCamelCase s
  else if caseType = "PascalCase" then toPascalCase s
  else if caseType = "snake_case" then toSnakeCase s
  else if caseType = "kebab-case" then toKebabCase s
  else if caseType = "CONSTANT_CASE" then toConstantCase s
  else s

/-- Swap the entries at indices `i` and `j` (Go slice element swap). -/
def swapIdx {α} [Inhabited α] (l : List α) (i j : Nat) : List α :=
  (l.set i (l.getD j default)).set j (l.getD i default)

/-- Two-pointer in-place reversal loop, shared by `ReverseText` and the
sort's `reverseRange`: Go
`for i, j := a, b-1; i < j; i, j = i+1, j-1 { swap(i, j) }`.
The fuel argument only bounds the iteration count; `b - a` iterations
always suffice because `j - i` shrinks by two per step. -/
def revRangeF {α} [Inhabited α] : Nat → List α → Nat → Nat → List α
  | 0, l, _, _ => l
  | f+1, l, i, j => if i < j then revRangeF f (swapIdx l i j) (i+1) (j-1) else l

/-- Model of `ReverseText` from `text_utils.go`: convert to runes, swap
symmetric positions pairwise. -/
def ReverseText (s : Str) : Str := revRangeF s.length s 0 (s.length - 1)

/-- Model of Go `strings.TrimSpace`: drop Unicode whitespace from both
ends. -/
def trimSpace (s : Str) : Str :=
  ((s.dropWhile isSpaceCP).reverse.dropWhile isSpaceCP).reverse

/-- Scanning loop of Go `strings.Fields`: maximal runs of non-space
runes. -/
def fieldsGo (acc : Str) : Str → List Str
  | [] => if acc = [] then [] else [acc]
  | c :: cs =>
    if isSpaceCP c then
      if acc = [] then fieldsGo [] cs else acc :: fieldsGo [] cs
    else fieldsGo (acc ++ [c]) cs

/-- Model of Go `strings.Fields`. -/
def stringsFields (s : Str) : List Str := fieldsGo [] s

/-- Prefix test on code-point lists (the pattern is the first
argument). -/
def strHasPfx : Str → Str → Bool
  | [], _ => true
  | _ :: _, [] => false
  | a :: as, b :: bs => a == b && strHasPfx as bs

/-- Index of the first occurrence of `sep` in the string, if any. -/
def findSubFrom (sep : Str) : Str → Option Nat
  | [] => if sep = [] then some 0 else none
  | c :: cs => if strHasPfx sep (c :: cs) then some 0 else (findSubFrom sep cs).map (· + 1)

/-- Splitting loop of Go `strings.Split` for a non-empty separator:
cut at each leftmost occurrence.  The fuel bounds the number of cuts;
`t.length + 1` always suffices. -/
def splitSeqF : Nat → Str → Str → List Str
  | 0, _, t => [t]
  | f+1, sep, t =>
    match findSubFrom sep t with
    | none => [t]
    | some m => t.take m :: splitSeqF f sep (t.drop (m + sep.length))

/-- Model of Go `strings.Split(t, sep)` for non-empty `sep`. -/
def splitSeq (sep t : Str) : List Str := splitSeqF (t.length + 1) sep t

/-- Statistics record returned by `WordCount` (the Go function returns
the same five counters in a `map[string]int`). -/
structure TextStats where
  words : Nat
  characters : Nat
  charactersNoSpaces : Nat
  lines : Nat
  paragraphs : Nat
deriving DecidableEq

/-- Model of `WordCount` from `text_utils.go`.  The input is trimmed
first; `characters` is Go `len(text)`, the UTF-8 *byte* length;
`charactersNoSpaces` is the byte length after
`strings.ReplaceAll(strings.ReplaceAll(text, " ", ""), "\n", "")`, and
replacing every occurrence of a single rune by the empty string deletes
exactly those runes, i.e. filters them out. -/
def WordCount (s : Str) : TextStats :=
  let t := trimSpace s
  { words := (stringsFields t).length
    characters := utf8Len t
    charactersNoSpaces := utf8Len ((t.filter (fun c => c ≠ 32)).filter (fun c => c ≠ 10))
    lines := (splitNl t).length
    paragraphs := ((splitSeq (strLit ("\n\n")) t).filter (fun p => trimSpace p ≠ [])).length }

/-- Model of Go `strings.ReplaceAll` (case-sensitive literal
replacement): with a non-empty pattern, cut at each occurrence and
rejoin with the replacement; with an empty pattern Go inserts the
replacement at every rune boundary. -/
def stringsReplaceAll (t find rep : Str) : Str :=
  if find = [] then rep ++ (t.map (fun c => c :: rep)).flatten
  else List.intercalate rep (splitSeq find t)

/-- Case-folding orbit representative for Go's `(?i)` matching on the
covered subset: uppercase then lowercase sends every member of a simple
fold orbit (such as `a`/`A`, `µ`/`μ`/`Μ`, `σ`/`ς`/`Σ`) to the same
representative. -/
def caseFoldCP (n : Nat) : Nat := toLowerCP (toUpperCP n)

/-- Rune equality under Go's case-insensitive `(?i)` simple folding. -/
def foldEqCP (a b : Nat) : Bool := caseFoldCP a == caseFoldCP b

/-- Case-insensitive prefix test (the pattern is the first argument):
this is how the compiled regex `(?i)` + `QuoteMeta(find)` matches at a
given position, rune by rune. -/
def foldPfx : Str → Str → Bool
  | [], _ => true
  | _ :: _, [] => false
  | a :: as, b :: bs => foldEqCP a b && foldPfx as bs

/-- Leftmost match search from position `p` (Go `doExecute`): the first
`q ≥ p` at which the case-insensitive literal pattern matches.  Fuel
`t.length + 1 - p` covers every candidate position. -/
def findFoldFromF : Nat → Str → Str → Nat → Option Nat
  | 0, _, _, _ => none
  | f+1, find, t, p =>
    if p > t.length then none
    else if foldPfx find (t.drop p) then some p
    else findFoldFromF f find t (p+1)

/-- Leftmost case-insensitive literal match at or after position `p`. -/
def findFoldFrom (find t : Str) (p : Nat) : Option Nat :=
  findFoldFromF (t.length + 1 - p) find t p

/-- Rune test for `$`-reference names in Go `Regexp.expand`:
`unicode.IsLetter(r) || unicode.IsDigit(r) || r == '_'`. -/
def isRefRune (n : Nat) : Bool := isLetterCP n || isDigitCP n || decide (n = 95)

/-- Split a template at the longest leading run of reference-name
runes (the name-scanning loop of Go `extract`). -/
def takeRefName (t : Str) : Str × Str := (t.takeWhile isRefRune, t.dropWhile isRefRune)

/-- Template expansion loop of Go `Regexp.expand` for a pattern with no
capture groups, so the only valid group reference is `$0` (name `"0"`),
which expands to the whole matched text; every other valid reference
expands to the empty string; `$$` yields a literal `$`; a malformed
reference leaves the `$` as raw text.  The fuel bounds the number of
steps; each step consumes at least one template rune so
`template.length + 1` suffices. -/
def expandGoF (matched : Str) : Nat → Str → Str
  | 0, t => t
  | _+1, [] => []
  | f+1, c :: rest =>
    if c = 36 then
      match rest with
      | [] => [36]
      | c2 :: r2 =>
        if c2 = 36 then 36 :: expandGoF matched f r2
        else if c2 = 123 then
          (let pr := takeRefName r2
           if pr.1 = [] then 36 :: expandGoF matched f rest
           else match pr.2 with
                | 125 :: r3 => (if pr.1 = [48] then matched else []) ++ expandGoF matched f r3
                | _ => 36 :: expandGoF matched f rest)
        else
          (let pr := takeRefName rest
           if pr.1 = [] then 36 :: expandGoF matched f rest
           else (if pr.1 = [48] then matched else []) ++ expandGoF matched f pr.2)
    else c :: expandGoF matched f rest

/-- Go `Regexp.expand` of a replacement template against a match. -/
def expandGo (matched rep : Str) : Str := expandGoF matched (rep.length + 1) rep

/-- Replacement loop of Go `Regexp.replaceAll`: repeatedly find the
leftmost match from `searchPos`, copy the text between `lastMatchEnd`
and the match, insert the expanded replacement (except for an empty
match immediately after a previous match), and advance — by the width of
one rune past an empty match, otherwise to the end of the match.  Each
iteration advances `searchPos`, so fuel `t.length + 2` suffices. -/
def replLoopF (find rep : Str) : Nat → Str → Nat → Nat → Str → Str
  | 0, t, _, lastEnd, buf => buf ++ t.drop lastEnd
  | f+1, t, searchPos, lastEnd, buf =>
    if searchPos > t.length then buf ++ t.drop lastEnd
    else
      match findFoldFrom find t searchPos with
      | none => buf ++ t.drop lastEnd
      | some m =>
        let e := m + find.length
        let buf1 := buf ++ ((t.drop lastEnd).take (m - lastEnd))
        let buf2 := if e > lastEnd ∨ m = 0 then buf1 ++ expandGo ((t.drop m).take find.length) rep else buf1
        let width := if searchPos < t.length then 1 else 0
        let sp2 := if searchPos + width > e then searchPos + width
                   else if searchPos + 1 > e then searchPos + 1 else e
        replLoopF find rep f t sp2 e buf2

/-- Model of `FindReplace` from `text_utils.go`: case-insensitive mode
compiles `"(?i)" + regexp.QuoteMeta(find)` — a case-insensitive literal
— and calls `ReplaceAllString`, whose replacement argument goes through
`expand`; case-sensitive mode is `strings.ReplaceAll`. -/
def FindReplace (t find rep : Str) (caseSensitive : Bool) : Str :=
  if !caseSensitive then replLoopF find rep (t.length + 2) t 0 0 []
  else stringsReplaceAll t find rep

/-- Scanner written from the specification's words, for comparison with
`FindReplace`: replace every leftmost non-overlapping case-insensitive
occurrence of `find`, inserting `rep` literally, scanning left to
right.  Each step consumes at least one rune of the text (the pattern
is non-empty), so fuel `t.length + 1` suffices. -/
def literalCIF (find rep : Str) : Nat → Str → Str
  | 0, t => t
  | f+1, t =>
    match t with
    | [] => []
    | c :: cs =>
      if foldPfx find (c :: cs) then rep ++ literalCIF find rep f ((c :: cs).drop find.length)
      else c :: literalCIF find rep f cs

/-- Specification-level case-insensitive literal replace-all: for an
empty pattern, a match is found at every rune boundary including both
ends, mirroring the regexp engine's empty-match behavior. -/
def literalReplaceCI (t find rep : Str) : Str :=
  if find = [] then rep ++ (t.map (fun c => c :: rep)).flatten
  else literalCIF find rep (t.length + 1) t

/-- Loop of Go `RemoveDuplicateLines`: `seen` models the
`map[string]bool` membership set, `acc` the `result` slice. -/
def dedupLinesGo (seen : List Str) (acc : List Str) : List Str → List Str
  | [] => acc
  | x :: xs =>
    if x ∈ seen then dedupLinesGo seen acc xs
    else dedupLinesGo (x :: seen) (acc ++ [x]) xs

/-- Model of `RemoveDuplicateLines` from `text_utils.go`. -/
def RemoveDuplicateLines (s : Str) : Str :=
  joinNl (dedupLinesGo [] [] (splitNl s))

/-- Go string comparison `<`: lexicographic byte order, which for valid
UTF-8 coincides with lexicographic code-point order. -/
def ltStr : Str → Str → Bool
  | [], [] => false
  | [], _ :: _ => true
  | _ :: _, [] => false
  | a :: as, b :: bs => if a < b then true else if b < a then false else ltStr as bs

/-- The comparison closure passed by `SortLines` to `sort.Slice`:
`strings.ToLower(lines[i]) < strings.ToLower(lines[j])` when ascending,
`>` when descending. -/
def sortLess (ascending : Bool) (x y : Str) : Bool :=
  if ascending then ltStr (lowerStr x) (lowerStr y) else ltStr (lowerStr y) (lowerStr x)

/-- Element read used by the sort model (indices are always in bounds in
the transcribed algorithm). -/
def getL (l : List Str) (i : Nat) : Str := l.getD i []

/-!
Model of Go's `sort.Slice`.  Since Go 1.19 `sort.Slice` runs the
pattern-defeating quicksort of `sort/zsortfunc.go` (`pdqsort_func` and
its helpers), with `limit = bits.Len(uint(length))`.  The functions
below transcribe that file; loops become fueled tail recursions, and
every call site passes fuel that dominates the loop's iteration count.
-/

/-- Inner sift loop of `insertionSort_func`:
`for j := i; j > a && less(j, j-1); j-- { swap(j, j-1) }`. -/
def insSortInner (less : Str → Str → Bool) (a : Nat) : List Str → Nat → List Str
  | l, 0 => l
  | l, j+1 =>
    if decide (a < j+1) && less (getL l (j+1)) (getL l j) then
      insSortInner less a (swapIdx l j (j+1)) j
    else l

/-- Outer loop of `insertionSort_func` over `i = a+1, …, b-1`; the
second argument counts the remaining iterations `b - i`. -/
def insSortOuter (less : Str → Str → Bool) (a : Nat) : List Str → Nat → Nat → List Str
  | l, _, 0 => l
  | l, i, cnt+1 => insSortOuter less a (insSortInner less a l i) (i+1) cnt

/-- Go `insertionSort_func(data, a, b)`. -/
def insertionSortGo (less : Str → Str → Bool) (l : List Str) (a b : Nat) : List Str :=
  insSortOuter less a l (a+1) (b - (a+1))

/-- Go `order2_func`: order two indices by the data they point to,
counting a swap. -/
def order2 (less : Str → Str → Bool) (l : List Str) (a b sw : Nat) : Nat × Nat × Nat :=
  if less (getL l b) (getL l a) then (b, a, sw + 1) else (a, b, sw)

/-- Go `median_func`: index of the median of three elements. -/
def medianIdx (less : Str → Str → Bool) (l : List Str) (a b c sw : Nat) : Nat × Nat :=
  let p1 := order2 less l a b sw
  let p2 := order2 less l p1.2.1 c p1.2.2
  let p3 := order2 less l p1.1 p2.1 p2.2.2
  (p3.2.1, p3.2.2)

/-- Go `medianAdjacent_func`: median of `data[a-1]`, `data[a]`,
`data[a+1]`. -/
def medianAdjacent (less : Str → Str → Bool) (l : List Str) (a sw : Nat) : Nat × Nat :=
  medianIdx less l (a-1) a (a+1) sw

/-- Go `choosePivot_func`.  Result: pivot index and a sortedness hint
(`1` increasing when no comparison was inverted, `2` decreasing when all
twelve were, `0` unknown otherwise).  Lengths below 8 use the static
middle pivot; lengths in `[8, 50)` the median of three at `l/4`,
`2*l/4`, `3*l/4`; lengths from 50 the Tukey ninther. -/
def choosePivot (less : Str → Str → Bool) (l : List Str) (a b : Nat) : Nat × Nat :=
  let len := b - a
  let i := a + len / 4 * 1
  let j := a + len / 4 * 2
  let k := a + len / 4 * 3
  if 8 ≤ len then
    if 50 ≤ len then
      let p1 := medianAdjacent less l i 0
      let p2 := medianAdjacent less l j p1.2
      let p3 := medianAdjacent less l k p2.2
      let p4 := medianIdx less l p1.1 p2.1 p3.1 p3.2
      (p4.1, if p4.2 = 0 then 1 else if p4.2 = 12 then 2 else 0)
    else
      let p4 := medianIdx less l i j k 0
      (p4.1, if p4.2 = 0 then 1 else if p4.2 = 12 then 2 else 0)
  else (j, 1)

/-- Go `reverseRange_func(data, a, b)`. -/
def reverseRange (l : List Str) (a b : Nat) : List Str :=
  revRangeF (b - a) l a (b - 1)

/-- Scan of `partialInsertionSort_func`:
`for i < b && !less(i, i-1) { i++ }`; returns the final `i`. -/
def scanWhileSorted (less : Str → Str → Bool) (l : List Str) (b : Nat) : Nat → Nat → Nat
  | 0, i => i
  | f+1, i =>
    if decide (i < b) && !(less (getL l i) (getL l (i-1))) then
      scanWhileSorted less l b f (i+1)
    else i

/-- Left-shift loop of `partialInsertionSort_func`:
`for j := i-1; j ≥ 1; j-- { if !less(j, j-1) break; swap(j, j-1) }`. -/
def shiftLeftF (less : Str → Str → Bool) : Nat → List Str → Nat → List Str
  | 0, l, _ => l
  | f+1, l, j =>
    if decide (1 ≤ j) && less (getL l j) (getL l (j-1)) then
      shiftLeftF less f (swapIdx l j (j-1)) (j-1)
    else l

/-- Right-shift loop of `partialInsertionSort_func`:
`for j := i+1; j < b; j++ { if !less(j, j-1) break; swap(j, j-1) }`. -/
def shiftRightF (less : Str → Str → Bool) (b : Nat) : Nat → List Str → Nat → List Str
  | 0, l, _ => l
  | f+1, l, j =>
    if decide (j < b) && less (getL l j) (getL l (j-1)) then
      shiftRightF less b f (swapIdx l j (j-1)) (j+1)
    else l

/-- Go `partialInsertionSort_func`: at most `maxSteps = 5` adjacent
out-of-order pairs are repaired (and only on ranges of at least
`shortestShifting = 50` elements); returns whether the range ended up
sorted, together with the data. -/
def partialInsSortF (less : Str → Str → Bool) (a b : Nat) : Nat → List Str → Nat → Bool × List Str
  | 0, l, _ => (false, l)
  | steps+1, l, i =>
    let i1 := scanWhileSorted less l b (b + 1) i
    if i1 = b then (true, l)
    else if b - a < 50 then (false, l)
    else
      let l1 := swapIdx l i1 (i1 - 1)
      let l2 := if 2 ≤ i1 - a then shiftLeftF less i1 l1 (i1 - 1) else l1
      let l3 := if 2 ≤ b - i1 then shiftRightF less b (b - i1) l2 (i1 + 1) else l2
      partialInsSortF less a b steps l3 i1

/-- Go `partialInsertionSort_func(data, a, b)`. -/
def partialInsSortGo (less : Str → Str → Bool) (l : List Str) (a b : Nat) : Bool × List Str :=
  partialInsSortF less a b 5 l (a+1)

/-- One step of the xorshift generator used by `breakPatterns_func`
(`*r ^= *r << 13; *r ^= *r >> 7; *r ^= *r << 17` on `uint64`). -/
def xorshiftNext (r : Nat) : Nat :=
  let r1 := (r ^^^ (r <<< 13)) % 2^64
  let r2 := (r1 ^^^ (r1 >>> 7)) % 2^64
  (r2 ^^^ (r2 <<< 17)) % 2^64

/-- Go `bits.Len`: number of bits needed to represent `n`. -/
def bitsLen (n : Nat) : Nat := if n = 0 then 0 else Nat.log2 n + 1

/-- Go `nextPowerOfTwo(length) = 1 << bits.Len(uint(length))`. -/
def nextPowerOfTwo (length : Nat) : Nat := 2 ^ bitsLen length

/-- One of the three scattering swaps of `breakPatterns_func`; returns
the data and the advanced random state. -/
def breakOne (l : List Str) (a len idx i r : Nat) : List Str × Nat :=
  let r1 := xorshiftNext r
  let other := r1 &&& (nextPowerOfTwo len - 1)
  let other2 := if other ≥ len then other - len else other
  (swapIdx l (idx - 1 + i) (a + other2), r1)

/-- Go `breakPatterns_func(data, a, b)`: on ranges of length at least 8,
scatter three elements around the middle using xorshift seeded with the
length. -/
def breakPatterns (l : List Str) (a b : Nat) : List Str :=
  let len := b - a
  if 8 ≤ len then
    let idx := a + len / 4 * 2 - 1
    let p1 := breakOne l a len idx 0 len
    let p2 := breakOne p1.1 a len idx 1 p1.2
    (breakOne p2.1 a len idx 2 p2.2).1
  else l

/-- Descent loop of `siftDown_func`; the root index at least doubles
each step, so fuel `hi + 1` suffices. -/
def siftDownF (less : Str → Str → Bool) (hi first : Nat) : Nat → List Str → Nat → List Str
  | 0, l, _ => l
  | f+1, l, root =>
    let child := 2 * root + 1
    if child ≥ hi then l
    else
      let child2 :=
        if decide (child + 1 < hi) && less (getL l (first + child)) (getL l (first + child + 1)) then
          child + 1
        else child
      if !(less (getL l (first + root)) (getL l (first + child2))) then l
      else siftDownF less hi first f (swapIdx l (first + root) (first + child2)) child2

/-- Go `siftDown_func(data, lo, hi, first)`. -/
def siftDown (less : Str → Str → Bool) (l : List Str) (lo hi first : Nat) : List Str :=
  siftDownF less hi first (hi + 1) l lo

/-- Heap construction loop of `heapSort_func`
(`for i := (hi-1)/2; i ≥ 0; i--`); the argument counts the remaining
iterations, the current root being `cnt`. -/
def heapBuildF (less : Str → Str → Bool) (hi first : Nat) : Nat → List Str → List Str
  | 0, l => l
  | cnt+1, l => heapBuildF less hi first cnt (siftDown less l cnt hi first)

/-- Pop loop of `heapSort_func` (`for i := hi-1; i ≥ 0; i--`). -/
def heapPopF (less : Str → Str → Bool) (first : Nat) : Nat → List Str → List Str
  | 0, l => l
  | cnt+1, l => heapPopF less first cnt (siftDown less (swapIdx l first (first + cnt)) 0 cnt first)

/-- Go `heapSort_func(data, a, b)`. -/
def heapSortGo (less : Str → Str → Bool) (l : List Str) (a b : Nat) : List Str :=
  let first := a
  let hi := b - a
  heapPopF less first hi (heapBuildF less hi first ((hi - 1) / 2 + 1) l)

/-- Upward scan of `partition_func`:
`for i <= j && less(i, a) { i++ }`; returns the final `i`. -/
def scanI (less : Str → Str → Bool) (l : List Str) (a : Nat) : Nat → Nat → Nat → Nat
  | 0, i, _ => i
  | f+1, i, j =>
    if decide (i ≤ j) && less (getL l i) (getL l a) then scanI less l a f (i+1) j else i

/-- Downward scan of `partition_func`:
`for i <= j && !less(j, a) { j-- }`; returns the final `j`. -/
def scanJ (less : Str → Str → Bool) (l : List Str) (a : Nat) : Nat → Nat → Nat → Nat
  | 0, _, j => j
  | f+1, i, j =>
    if decide (i ≤ j) && !(less (getL l j) (getL l a)) then scanJ less l a f i (j-1) else j

/-- Main exchange loop of `partition_func`; returns the data and the
final `j`.  `i` grows every iteration, so fuel `b + 2` suffices. -/
def partLoopF (less : Str → Str → Bool) (a : Nat) : Nat → List Str → Nat → Nat → List Str × Nat
  | 0, l, _, j => (l, j)
  | f+1, l, i, j =>
    let i1 := scanI less l a (j + 2) i j
    let j1 := scanJ less l a (j + 2) i1 j
    if i1 > j1 then (l, j1)
    else partLoopF less a f (swapIdx l i1 j1) (i1 + 1) (j1 - 1)

/-- Go `partition_func(data, a, b, pivot)`: Hoare partition around the
pivot value moved to position `a`; returns the data, the final pivot
position, and whether the range was already partitioned. -/
def partitionGo (less : Str → Str → Bool) (l : List Str) (a b pivot : Nat) :
    List Str × Nat × Bool :=
  let l0 := swapIdx l a pivot
  let i1 := scanI less l0 a (b + 2) (a + 1) (b - 1)
  let j1 := scanJ less l0 a (b + 2) i1 (b - 1)
  if i1 > j1 then (swapIdx l0 j1 a, j1, true)
  else
    let p := partLoopF less a (b + 2) (swapIdx l0 i1 j1) (i1 + 1) (j1 - 1)
    (swapIdx p.1 p.2 a, p.2, false)

/-- Upward scan of `partitionEqual_func`:
`for i <= j && !less(a, i) { i++ }`. -/
def scanIEq (less : Str → Str → Bool) (l : List Str) (a : Nat) : Nat → Nat → Nat → Nat
  | 0, i, _ => i
  | f+1, i, j =>
    if decide (i ≤ j) && !(less (getL l a) (getL l i)) then scanIEq less l a f (i+1) j else i

/-- Downward scan of `partitionEqual_func`:
`for i <= j && less(a, j) { j-- }`. -/
def scanJEq (less : Str → Str → Bool) (l : List Str) (a : Nat) : Nat → Nat → Nat → Nat
  | 0, _, j => j
  | f+1, i, j =>
    if decide (i ≤ j) && less (getL l a) (getL l j) then scanJEq less l a f i (j-1) else j

/-- Exchange loop of `partitionEqual_func`; returns the data and the
final `i`. -/
def partEqLoopF (less : Str → Str → Bool) (a : Nat) : Nat → List Str → Nat → Nat → List Str × Nat
  | 0, l, i, _ => (l, i)
  | f+1, l, i, j =>
    let i1 := scanIEq less l a (j + 2) i j
    let j1 := scanJEq less l a (j + 2) i1 j
    if i1 > j1 then (l, i1)
    else partEqLoopF less a f (swapIdx l i1 j1) (i1 + 1) (j1 - 1)

/-- Go `partitionEqual_func(data, a, b, pivot)`: partitions the range
into elements equal to the pivot followed by elements greater than it;
returns the data and the first index of the greater part. -/
def partitionEqualGo (less : Str → Str → Bool) (l : List Str) (a b pivot : Nat) :
    List Str × Nat :=
  let l0 := swapIdx l a pivot
  partEqLoopF less a (b + 2) l0 (a + 1) (b - 1)

/-- Go `pdqsort_func(data, a, b, limit)` with its two loop-local flags
`wasBalanced` and `wasPartitioned` (both start `true`).  Every loop
iteration and recursive call strictly shrinks `b - a`, so fuel
`length + 1` suffices at the top call. -/
def pdqsortF (less : Str → Str → Bool) :
    Nat → List Str → Nat → Nat → Nat → Bool → Bool → List Str
  | 0, l, _, _, _, _, _ => l
  | f+1, l, a, b, limit, wasBalanced, wasPartitioned =>
    let length := b - a
    if length ≤ 12 then insertionSortGo less l a b
    else if limit = 0 then heapSortGo less l a b
    else
      let l1 := if !wasBalanced then breakPatterns l a b else l
      let limit1 := if !wasBalanced then limit - 1 else limit
      let pv := choosePivot less l1 a b
      let l2 := if pv.2 = 2 then reverseRange l1 a b else l1
      let pivot1 := if pv.2 = 2 then (b - 1) - (pv.1 - a) else pv.1
      let hint1 := if pv.2 = 2 then 1 else pv.2
      let pr :=
        if wasBalanced && wasPartitioned && decide (hint1 = 1) then
          partialInsSortGo less l2 a b
        else (false, l2)
      if pr.1 then pr.2
      else
        let l4 := pr.2
        if decide (0 < a) && !(less (getL l4 (a-1)) (getL l4 pivot1)) then
          let pe := partitionEqualGo less l4 a b pivot1
          pdqsortF less f pe.1 pe.2 b limit1 wasBalanced wasPartitioned
        else
          let pt := partitionGo less l4 a b pivot1
          let mid := pt.2.1
          let leftLen := mid - a
          let rightLen := b - mid
          let balanced := decide (min leftLen rightLen ≥ length / 8)
          if leftLen < rightLen then
            pdqsortF less f (pdqsortF less f pt.1 a mid limit1 true true)
              (mid + 1) b limit1 balanced pt.2.2
          else
            pdqsortF less f (pdqsortF less f pt.1 (mid + 1) b limit1 true true)
              a mid limit1 balanced pt.2.2

/-- Go `sort.Slice(x, less)`:
`pdqsort(data, 0, length, bits.Len(uint(length)))`. -/
def sortSliceGo (less : Str → Str → Bool) (l : List Str) : List Str :=
  pdqsortF less (l.length + 1) l 0 l.length (bitsLen l.length) true true

/-- Model of `SortLines` from `text_utils.go`. -/
def SortLines (s : Str) (ascending : Bool) : Str :=
  joinNl (sortSliceGo (sortLess ascending) (splitNl s))

/-!
Support lemmas.
-/

theorem splitWordsAux_no_word (s : Str) :
    ∀ prev : Option Nat, (∀ c ∈ s, wordCharCP c = false) → splitWordsAux prev [] s = [] := by
  induction s with
  | nil => intro prev _; rfl
  | cons c cs ih =>
    intro prev h
    have hc : wordCharCP c = false := h c (List.mem_cons_self c cs)
    simp only [splitWordsAux, hc, Bool.false_eq_true, if_false, if_pos rfl]
    exact ih (some c) (fun d hd => h d (List.mem_cons_of_mem _ hd))

theorem getD_append_cons {α} (P R : List α) (x d : α) :
    (P ++ x :: R).getD P.length d = x := by
  induction P with
  | nil => rfl
  | cons p P ih => simpa using ih

theorem set_append_cons {α} (P R : List α) (x v : α) :
    (P ++ x :: R).set P.length v = P ++ v :: R := by
  induction P with
  | nil => rfl
  | cons p P ih => simpa using ih

theorem swapIdx_append {α} [Inhabited α] (P M R : List α) (x y : α) :
    swapIdx (P ++ x :: M ++ y :: R) P.length (P.length + M.length + 1) = P ++ y :: M ++ x :: R := by
  have hx : (P ++ x :: M ++ y :: R).getD P.length default = x := by
    have := getD_append_cons P (M ++ y :: R) x default
    simpa using this
  have hlen : (P ++ x :: M).length = P.length + M.length + 1 := by
    simp [List.length_append]; omega
  have hy : (P ++ x :: M ++ y :: R).getD (P.length + M.length + 1) default = y := by
    have := getD_append_cons (P ++ x :: M) R y default
    rw [hlen] at this
    simpa [List.append_assoc] using this
  have hset1 : (P ++ x :: M ++ y :: R).set P.length y = P ++ y :: M ++ y :: R := by
    have := set_append_cons P (M ++ y :: R) x y
    simpa [List.append_assoc] using this
  have hset2 : (P ++ y :: M ++ y :: R).set (P.length + M.length + 1) x
      = P ++ y :: M ++ x :: R := by
    have hlen2 : (P ++ y :: M).length = P.length + M.length + 1 := by
      simp [List.length_append]; omega
    have := set_append_cons (P ++ y :: M) R y x
    rw [hlen2] at this
    simpa [List.append_assoc] using this
  simp only [swapIdx, hx, hy, hset1, hset2]

theorem revRangeF_spec {α} [Inhabited α] :
    ∀ (f : Nat) (M P S : List α), M.length ≤ f →
      revRangeF f (P ++ M ++ S) P.length (P.length + M.length - 1) = P ++ M.reverse ++ S := by
  intro f
  induction f with
  | zero =>
    intro M P S hM
    have : M = [] := List.length_eq_zero.mp (Nat.le_zero.mp hM)
    subst this
    rfl
  | succ f ih =>
    intro M P S hM
    match M with
    | [] =>
      simp only [revRangeF, List.length_nil, Nat.add_zero]
      rw [if_neg (by omega)]
      simp
    | [x] =>
      simp only [revRangeF, List.length_cons, List.length_nil]
      rw [if_neg (by omega)]
      simp
    | x :: M1 =>
      rcases List.eq_nil_or_concat M1 with h1 | ⟨M2, y, rfl⟩
      · subst h1
        simp only [revRangeF, List.length_cons, List.length_nil]
        rw [if_neg (by omega)]
        simp
      · simp only [List.concat_eq_append] at hM ⊢
        have hlen : (x :: (M2 ++ [y])).length = M2.length + 2 := by simp
        simp only [revRangeF]
        rw [if_pos (by rw [hlen]; omega)]
        have hsw : swapIdx (P ++ (x :: (M2 ++ [y])) ++ S) P.length
            (P.length + (x :: (M2 ++ [y])).length - 1) = P ++ y :: M2 ++ x :: S := by
          have := swapIdx_append P M2 S x y
          rw [hlen]
          have harr : P ++ (x :: (M2 ++ [y])) ++ S = P ++ x :: M2 ++ y :: S := by
            simp [List.append_assoc]
          rw [harr]
          have : P.length + (M2.length + 2) - 1 = P.length + M2.length + 1 := by omega
          rw [this]
          exact swapIdx_append P M2 S x y
        rw [hsw]
        have harr2 : P ++ y :: M2 ++ x :: S = (P ++ [y]) ++ M2 ++ (x :: S) := by
          simp [List.append_assoc]
        have hi : P.length + 1 = (P ++ [y]).length := by simp
        have hj : P.length + (x :: (M2 ++ [y])).length - 1 - 1
            = (P ++ [y]).length + M2.length - 1 := by
          rw [hlen]
          simp only [List.length_append, List.length_cons, List.length_nil]
          omega
        rw [harr2, hi, hj, ih M2 (P ++ [y]) (x :: S) (by rw [hlen] at hM; omega)]
        simp [List.append_assoc]

theorem reverseText_eq_reverse (s : Str) : ReverseText s = s.reverse := by
  have := revRangeF_spec s.length s [] []
  simp only [List.nil_append, List.append_nil, List.length_nil, Nat.zero_add] at this
  exact this (Nat.le_refl _)

/-!
Claim theorems, part one.
-/

/-- C1: tokenizing `"myVarName123"` yields `["my","Var","Name123"]`,
converting it to `snake_case` yields `"my_var_name123"`, and converting
that back to `camelCase` yields `"myVarName123"`. -/
theorem c1_style_round_trip :
    splitWords (strLit ("myVarName123")) = [strLit ("my"), strLit ("Var"), strLit ("Name123")] ∧
    ConvertCase (strLit ("myVarName123")) ("snake_case") = strLit ("my_var_name123") ∧
    ConvertCase (strLit ("my_var_name123")) ("camelCase") = strLit ("myVarName123") :=
  ⟨by decide, by decide, by decide⟩

/-- C6: for every style string outside the five recognized tags,
`ConvertCase` returns the input unchanged. -/
theorem c6_unknown_style_identity (text : Str) (style : String)
    (h : style ∉ [("camelCase" : String), "PascalCase", "snake_case", "kebab-case", "CONSTANT_CASE"]) :
    ConvertCase text style = text := by
  simp only [List.mem_cons, List.not_mem_nil, or_false, not_or] at h
  obtain ⟨h1, h2, h3, h4, h5⟩ := h
  simp only [ConvertCase, if_neg h1, if_neg h2, if_neg h3, if_neg h4, if_neg h5]

/-- C6 witness: `ConvertCase("abc", "unknown-style")` is `"abc"`. -/
theorem c6_witness :
    ("unknown-style" : String) ∉ [("camelCase" : String), "PascalCase", "snake_case", "kebab-case", "CONSTANT_CASE"] ∧
    ConvertCase (strLit ("abc")) ("unknown-style") = strLit ("abc") :=
  ⟨by decide, c6_unknown_style_identity _ _ (by decide)⟩

/-- C7: on input with no letter or digit code points the tokenizer
yields no tokens and every one of the five valid styles renders the
empty string. -/
theorem c7_no_word_chars_empty (s : Str) (h : ∀ c ∈ s, wordCharCP c = false) :
    ConvertCase s ("camelCase") = [] ∧ ConvertCase s ("PascalCase") = [] ∧
    ConvertCase s ("snake_case") = [] ∧ ConvertCase s ("kebab-case") = [] ∧
    ConvertCase s ("CONSTANT_CASE") = [] := by
  have hw : splitWords s = [] := splitWordsAux_no_word s none h
  refine ⟨?_, ?_, ?_, ?_, ?_⟩
  · rw [show ConvertCase s ("camelCase") = toCamelCase s from rfl]
    simp [toCamelCase, hw]
  · rw [show ConvertCase s ("PascalCase") = toPascalCase s from rfl]
    simp [toPascalCase, hw]
  · rw [show ConvertCase s ("snake_case") = toSnakeCase s from rfl]
    simp [toSnakeCase, hw, List.intercalate]
  · rw [show ConvertCase s ("kebab-case") = toKebabCase s from rfl]
    simp [toKebabCase, hw, List.intercalate]
  · rw [show ConvertCase s ("CONSTANT_CASE") = toConstantCase s from rfl]
    simp [toConstantCase, hw, List.intercalate]

/-- C7 witness: `"!!!   ---"` has no word characters and renders empty
under `snake_case`. -/
theorem c7_witness :
    (∀ c ∈ strLit ("!!!   ---"), wordCharCP c = false) ∧
    ConvertCase (strLit ("!!!   ---")) ("snake_case") = [] :=
  ⟨by decide, (c7_no_word_chars_empty _ (by decide)).2.2.1⟩

/-- Position of the first occurrence of a line in a list of lines
(length of the list when absent). -/
def firstPos (a : Str) : List Str → Nat
  | [] => 0
  | x :: xs => if x = a then 0 else firstPos a xs + 1

theorem firstPos_cons_self {a : Str} {xs : List Str} : firstPos a (a :: xs) = 0 := by
  simp [firstPos]

theorem firstPos_cons_ne {x a : Str} (h : x ≠ a) {xs : List Str} :
    firstPos a (x :: xs) = firstPos a xs + 1 := by
  simp [firstPos, h]

theorem dedupLinesGo_acc (xs : List Str) :
    ∀ seen acc, dedupLinesGo seen acc xs = acc ++ dedupLinesGo seen [] xs := by
  induction xs with
  | nil => intro seen acc; simp [dedupLinesGo]
  | cons x xs ih =>
    intro seen acc
    by_cases hx : x ∈ seen
    · simp only [dedupLinesGo, if_pos hx]
      exact ih seen acc
    · simp only [dedupLinesGo, if_neg hx]
      rw [ih (x :: seen) (acc ++ [x]), ih (x :: seen) ([] ++ [x])]
      simp

theorem dedupLinesGo_cons (x : Str) (xs : List Str) (seen : List Str) :
    dedupLinesGo seen [] (x :: xs) =
      if x ∈ seen then dedupLinesGo seen [] xs else x :: dedupLinesGo (x :: seen) [] xs := by
  by_cases hx : x ∈ seen
  · simp [dedupLinesGo, hx]
  · simp only [dedupLinesGo, if_neg hx, if_pos, hx, if_false]
    rw [dedupLinesGo_acc xs (x :: seen) ([] ++ [x])]
    simp

theorem dedupLinesGo_sublist (xs : List Str) :
    ∀ seen, List.Sublist (dedupLinesGo seen [] xs) xs := by
  induction xs with
  | nil => intro seen; simp [dedupLinesGo]
  | cons x xs ih =>
    intro seen
    rw [dedupLinesGo_cons]
    by_cases hx : x ∈ seen
    · rw [if_pos hx]
      exact List.Sublist.cons x (ih seen)
    · rw [if_neg hx]
      exact List.Sublist.cons₂ x (ih (x :: seen))

theorem dedupLinesGo_mem (xs : List Str) :
    ∀ seen y, y ∈ dedupLinesGo seen [] xs ↔ (y ∈ xs ∧ y ∉ seen) := by
  induction xs with
  | nil => intro seen y; simp [dedupLinesGo]
  | cons x xs ih =>
    intro seen y
    rw [dedupLinesGo_cons]
    by_cases hx : x ∈ seen
    · rw [if_pos hx]
      rw [ih seen y]
      constructor
      · rintro ⟨hy1, hy2⟩
        exact ⟨List.mem_cons_of_mem _ hy1, hy2⟩
      · rintro ⟨hy1, hy2⟩
        rcases List.mem_cons.mp hy1 with rfl | hy1
        · exact absurd hx hy2
        · exact ⟨hy1, hy2⟩
    · rw [if_neg hx]
      simp only [List.mem_cons, ih (x :: seen) y, List.mem_cons, not_or]
      constructor
      · rintro (rfl | ⟨hy1, hy2, hy3⟩)
        · exact ⟨Or.inl rfl, hx⟩
        · exact ⟨Or.inr hy1, hy3⟩
      · rintro ⟨rfl | hy1, hy2⟩
        · exact Or.inl rfl
        · by_cases hyx : y = x
          · exact Or.inl hyx
          · exact Or.inr ⟨hy1, hyx, hy2⟩

theorem dedupLinesGo_nodup (xs : List Str) :
    ∀ seen, (dedupLinesGo seen [] xs).Nodup := by
  induction xs with
  | nil => intro seen; simp [dedupLinesGo]
  | cons x xs ih =>
    intro seen
    rw [dedupLinesGo_cons]
    by_cases hx : x ∈ seen
    · rw [if_pos hx]; exact ih seen
    · rw [if_neg hx]
      refine List.nodup_cons.mpr ⟨?_, ih (x :: seen)⟩
      intro hmem
      exact ((dedupLinesGo_mem xs (x :: seen) x).mp hmem).2 (List.mem_cons_self x seen)

theorem dedupLinesGo_pairwise (xs : List Str) :
    ∀ seen, (dedupLinesGo seen [] xs).Pairwise
      (fun a b => firstPos a xs < firstPos b xs) := by
  induction xs with
  | nil => intro seen; simp [dedupLinesGo]
  | cons x xs ih =>
    intro seen
    rw [dedupLinesGo_cons]
    by_cases hx : x ∈ seen
    · rw [if_pos hx]
      refine (ih seen).imp_of_mem ?_
      intro a b ha hb hab
      have hax : x ≠ a := by
        intro h
        exact ((dedupLinesGo_mem xs seen a).mp ha).2 (h ▸ hx)
      have hbx : x ≠ b := by
        intro h
        exact ((dedupLinesGo_mem xs seen b).mp hb).2 (h ▸ hx)
      rw [firstPos_cons_ne hax, firstPos_cons_ne hbx]
      omega
    · rw [if_neg hx]
      refine List.pairwise_cons.mpr ⟨?_, ?_⟩
      · intro b hb
        have hbx : x ≠ b := fun h =>
          ((dedupLinesGo_mem xs (x :: seen) b).mp hb).2 (h ▸ List.mem_cons_self x seen)
        rw [firstPos_cons_self, firstPos_cons_ne hbx]
        omega
      · refine (ih (x :: seen)).imp_of_mem ?_
        intro a b ha hb hab
        have hax : x ≠ a := fun h =>
          ((dedupLinesGo_mem xs (x :: seen) a).mp ha).2 (h ▸ List.mem_cons_self x seen)
        have hbx : x ≠ b := fun h =>
          ((dedupLinesGo_mem xs (x :: seen) b).mp hb).2 (h ▸ List.mem_cons_self x seen)
        rw [firstPos_cons_ne hax, firstPos_cons_ne hbx]
        omega

theorem utf8Size_pos (n : Nat) : 1 ≤ utf8Size n := by
  unfold utf8Size
  split_ifs <;> omega

theorem utf8Size_of_ascii {n : Nat} (h : n < 128) : utf8Size n = 1 := by
  unfold utf8Size
  rw [if_pos h]

theorem utf8Size_of_non_ascii {n : Nat} (h : 128 ≤ n) : 2 ≤ utf8Size n := by
  unfold utf8Size
  split_ifs <;> omega

theorem utf8Len_ge_length (s : Str) : s.length ≤ utf8Len s := by
  induction s with
  | nil => simp [utf8Len]
  | cons c cs ih =>
    simp only [utf8Len, List.map_cons, List.sum_cons, List.length_cons]
    have := utf8Size_pos c
    simp only [utf8Len] at ih
    omega

theorem utf8Len_of_ascii (s : Str) (h : ∀ c ∈ s, c < 128) : utf8Len s = s.length := by
  induction s with
  | nil => simp [utf8Len]
  | cons c cs ih =>
    simp only [utf8Len, List.map_cons, List.sum_cons, List.length_cons]
    rw [utf8Size_of_ascii (h c (List.mem_cons_self c cs))]
    simp only [utf8Len] at ih
    rw [ih (fun d hd => h d (List.mem_cons_of_mem _ hd))]
    omega

theorem utf8Len_append (s t : Str) : utf8Len (s ++ t) = utf8Len s + utf8Len t := by
  simp [utf8Len]

/-- C8: `ReverseText` is an involution, and it reverses exactly the
sequence of code points. -/
theorem c8_reverse_involution (s : Str) :
    ReverseText (ReverseText s) = s ∧ ReverseText s = s.reverse := by
  constructor
  · rw [reverseText_eq_reverse, reverseText_eq_reverse, List.reverse_reverse]
  · exact reverseText_eq_reverse s

/-- C9: `RemoveDuplicateLines` splits on newline, keeps exactly the
first occurrence of each distinct line (exact string equality), in the
order of those first occurrences, and joins with newline: the kept list
is duplicate-free, is a subsequence of the input lines, contains exactly
the input's lines, and is ordered by position of first occurrence; on
`"a\nb\na\nc\nb"` the result is `"a\nb\nc"`. -/
theorem c9_remove_duplicate_lines :
    (∀ s : Str,
      RemoveDuplicateLines s = joinNl (dedupLinesGo [] [] (splitNl s)) ∧
      (dedupLinesGo [] [] (splitNl s)).Nodup ∧
      List.Sublist (dedupLinesGo [] [] (splitNl s)) (splitNl s) ∧
      (∀ y, y ∈ dedupLinesGo [] [] (splitNl s) ↔ y ∈ splitNl s) ∧
      (dedupLinesGo [] [] (splitNl s)).Pairwise
        (fun a b => firstPos a (splitNl s) < firstPos b (splitNl s))) ∧
    RemoveDuplicateLines (strLit ("a\nb\na\nc\nb")) = strLit ("a\nb\nc") := by
  constructor
  · intro s
    refine ⟨rfl, dedupLinesGo_nodup _ _, dedupLinesGo_sublist _ _, ?_, dedupLinesGo_pairwise _ _⟩
    intro y
    rw [dedupLinesGo_mem]
    simp
  · decide

/-- C10: the `characters` field of `WordCount` is the UTF-8 byte length
of the trimmed input and `charactersNoSpaces` the byte length after
removing spaces and newlines; consequently `characters` equals the
code-point count for pure-ASCII trimmed input and strictly exceeds it
whenever the trimmed input contains a non-ASCII code point. -/
theorem c10_wordcount_byte_lengths (s : Str) :
    (WordCount s).characters = utf8Len (trimSpace s) ∧
    (WordCount s).charactersNoSpaces
      = utf8Len (((trimSpace s).filter (fun c => c ≠ 32)).filter (fun c => c ≠ 10)) ∧
    ((∀ c ∈ trimSpace s, c < 128) → (WordCount s).characters = (trimSpace s).length) ∧
    ((∃ c ∈ trimSpace s, 128 ≤ c) → (trimSpace s).length < (WordCount s).characters) := by
  refine ⟨rfl, rfl, ?_, ?_⟩
  · intro h
    exact utf8Len_of_ascii _ h
  · rintro ⟨c, hc, hc128⟩
    obtain ⟨t1, t2, heq⟩ := List.append_of_mem hc
    show (trimSpace s).length < utf8Len (trimSpace s)
    rw [heq, utf8Len_append]
    have h1 := utf8Len_ge_length t1
    have h2 := utf8Len_ge_length t2
    have h3 := utf8Size_of_non_ascii hc128
    simp only [utf8Len, List.map_cons, List.sum_cons, List.length_append, List.length_cons]
    simp only [utf8Len] at h1 h2
    omega

/-- C10 witness: on `"héllo"` the `characters` field (6 bytes) strictly
exceeds the code-point count (5). -/
theorem c10_witness :
    (∃ c ∈ trimSpace (strLit ("héllo")), 128 ≤ c) ∧
    (trimSpace (strLit ("héllo"))).length < (WordCount (strLit ("héllo"))).characters ∧
    (∀ c ∈ trimSpace (strLit ("hello")), c < 128) ∧
    (WordCount (strLit ("hello"))).characters = (trimSpace (strLit ("hello"))).length :=
  ⟨by decide, (c10_wordcount_byte_lengths (strLit ("héllo"))).2.2.2 (by decide),
   by decide, (c10_wordcount_byte_lengths (strLit ("hello"))).2.2.1 (by decide)⟩

/-!
Claim C2: rendering of tokens by `toCamelCase` and `toPascalCase`.
-/

/-- Renderer written from the claim's words: lowercase a token and then
uppercase only its first code point. -/
def upperFirst : Str → Str
  | [] => []
  | c :: cs => toUpperCP c :: cs

/-- Camel rendering as the claim states it: first token lowercased
entirely, each later token lowercased with only its first code point
uppercased, concatenated. -/
def camelRenderClaim (s : Str) : Str :=
  match splitWords s with
  | [] => []
  | w :: ws => lowerStr w ++ (ws.map (fun w' => upperFirst (lowerStr w'))).flatten

/-- Pascal rendering as the claim states it. -/
def pascalRenderClaim (s : Str) : Str :=
  ((splitWords s).map (fun w => upperFirst (lowerStr w))).flatten

theorem isLowerCP_not_upper {n : Nat} (h : isLowerCP n = true) : isUpperCP n = false := by
  simp only [isLowerCP, decide_eq_true_eq] at h
  simp only [isUpperCP, decide_eq_false_iff_not]
  omega

theorem titleIsSep_toLower_of_word {c : Nat} (hw : wordCharCP c = true) :
    titleIsSep (toLowerCP c) = false := by
  simp only [wordCharCP, isLetterCP, isNumberCP, isUpperCP, isLowerCP, isDigitCP,
    Bool.or_eq_true, decide_eq_true_eq] at hw
  unfold toLowerCP titleIsSep
  simp only [isLetterCP, isUpperCP, isLowerCP, isDigitCP, isSpaceCP, Bool.or_eq_true,
    decide_eq_true_eq, Bool.not_eq_true', decide_eq_false_iff_not, decide_eq_true_eq]
  split_ifs <;> simp_all <;> omega

theorem stringsTitleAux_of_no_sep (cs : Str) :
    ∀ prev, titleIsSep prev = false → (∀ c ∈ cs, titleIsSep c = false) →
      stringsTitleAux prev cs = cs := by
  induction cs with
  | nil => intro prev _ _; rfl
  | cons c cs ih =>
    intro prev hprev hall
    simp only [stringsTitleAux, hprev, Bool.false_eq_true, if_false]
    rw [ih c (hall c (List.mem_cons_self c cs)) (fun d hd => hall d (List.mem_cons_of_mem _ hd))]

theorem stringsTitle_of_no_sep (w : Str) (h : ∀ c ∈ w, titleIsSep c = false) :
    stringsTitle w = upperFirst w := by
  match w with
  | [] => rfl
  | c :: cs =>
    show stringsTitleAux 32 (c :: cs) = toUpperCP c :: cs
    simp only [stringsTitleAux, show titleIsSep 32 = true from rfl, if_true]
    rw [stringsTitleAux_of_no_sep cs c (h c (List.mem_cons_self c cs))
      (fun d hd => h d (List.mem_cons_of_mem _ hd))]
    rfl

theorem splitWordsAux_token_mem (rest : Str) :
    ∀ (prev : Option Nat) (acc t : Str), t ∈ splitWordsAux prev acc rest →
      ∀ c ∈ t, c ∈ acc ∨ c ∈ rest := by
  induction rest with
  | nil =>
    intro prev acc t ht c hc
    by_cases hacc : acc = []
    · simp [splitWordsAux, hacc] at ht
    · simp only [splitWordsAux, if_neg hacc, List.mem_singleton] at ht
      exact Or.inl (ht ▸ hc)
  | cons r rest ih =>
    intro prev acc t ht c hc
    by_cases hw : wordCharCP r = true
    · simp only [splitWordsAux, hw, if_true] at ht
      by_cases hb : (humpBoundary prev r && decide (acc ≠ [])) = true
      · rw [if_pos hb] at ht
        rcases List.mem_cons.mp ht with rfl | ht
        · exact Or.inl hc
        · rcases ih (some r) [r] t ht c hc with h1 | h1
          · exact Or.inr (List.mem_cons.mpr (Or.inl (List.mem_singleton.mp h1)))
          · exact Or.inr (List.mem_cons_of_mem _ h1)
      · rw [if_neg hb] at ht
        rcases ih (some r) (acc ++ [r]) t ht c hc with h1 | h1
        · rcases List.mem_append.mp h1 with h2 | h2
          · exact Or.inl h2
          · exact Or.inr (List.mem_cons.mpr (Or.inl (List.mem_singleton.mp h2)))
        · exact Or.inr (List.mem_cons_of_mem _ h1)
    · simp only [splitWordsAux, hw, if_false, Bool.false_eq_true] at ht
      by_cases hacc : acc = []
      · rw [if_pos hacc] at ht
        rcases ih (some r) [] t ht c hc with h1 | h1
        · simp at h1
        · exact Or.inr (List.mem_cons_of_mem _ h1)
      · rw [if_neg hacc] at ht
        rcases List.mem_cons.mp ht with rfl | ht
        · exact Or.inl hc
        · rcases ih (some r) [] t ht c hc with h1 | h1
          · simp at h1
          · exact Or.inr (List.mem_cons_of_mem _ h1)

theorem splitWordsAux_token_word (rest : Str) :
    ∀ (prev : Option Nat) (acc t : Str), (∀ c ∈ acc, wordCharCP c = true) →
      t ∈ splitWordsAux prev acc rest → ∀ c ∈ t, wordCharCP c = true := by
  induction rest with
  | nil =>
    intro prev acc t hacc ht c hc
    by_cases he : acc = []
    · simp [splitWordsAux, he] at ht
    · simp only [splitWordsAux, if_neg he, List.mem_singleton] at ht
      exact hacc c (ht ▸ hc)
  | cons r rest ih =>
    intro prev acc t hacc ht c hc
    by_cases hw : wordCharCP r = true
    · simp only [splitWordsAux, hw, if_true] at ht
      by_cases hb : (humpBoundary prev r && decide (acc ≠ [])) = true
      · rw [if_pos hb] at ht
        rcases List.mem_cons.mp ht with rfl | ht
        · exact hacc c hc
        · refine ih (some r) [r] t ?_ ht c hc
          intro d hd
          rw [List.mem_singleton.mp hd]
          exact hw
      · rw [if_neg hb] at ht
        refine ih (some r) (acc ++ [r]) t ?_ ht c hc
        intro d hd
        rcases List.mem_append.mp hd with h1 | h1
        · exact hacc d h1
        · rw [List.mem_singleton.mp h1]
          exact hw
    · simp only [splitWordsAux, hw, if_false, Bool.false_eq_true] at ht
      by_cases he : acc = []
      · rw [if_pos he] at ht
        exact ih (some r) [] t (by simp) ht c hc
      · rw [if_neg he] at ht
        rcases List.mem_cons.mp ht with rfl | ht
        · exact hacc c hc
        · exact ih (some r) [] t (by simp) ht c hc

theorem splitWords_token_word {s t : Str} (ht : t ∈ splitWords s) :
    ∀ c ∈ t, wordCharCP c = true :=
  splitWordsAux_token_word s none [] t (by simp) ht

theorem splitWords_token_mem {s t : Str} (ht : t ∈ splitWords s) : ∀ c ∈ t, c ∈ s := by
  intro c hc
  rcases splitWordsAux_token_mem s none [] t ht c hc with h | h
  · simp at h
  · exact h

/-- C2: camel rendering lowercases the first token entirely and gives
every later token — lowercased — exactly one title-cased leading code
point; pascal rendering does so for every token.  Within a token every
code point is a letter or a number, and none of those is a separator
for `strings.Title` (non-digit numbers such as `¹` fall through to the
`IsSpace` check, which rejects them), so no code point other than the
first is uppercased: `"my 123abc"` renders with the letters of
`123abc` all lowercase, and `"x a¹b"` renders as `"XA¹b"`/`"xA¹b"`. -/
theorem c2_first_code_point_upper :
    (∀ s : Str, toCamelCase s = camelRenderClaim s ∧ toPascalCase s = pascalRenderClaim s) ∧
    toCamelCase (strLit ("my 123abc")) = strLit ("my123abc") ∧
    toCamelCase (strLit ("x a¹b")) = strLit ("xA¹b") ∧
    toPascalCase (strLit ("x a¹b")) = strLit ("XA¹b") := by
  refine ⟨?_, by decide, by decide, by decide⟩
  intro s
  have key : ∀ w ∈ splitWords s, stringsTitle (lowerStr w) = upperFirst (lowerStr w) := by
    intro w hw
    apply stringsTitle_of_no_sep
    intro lc hlc
    obtain ⟨c, hcw, rfl⟩ := List.mem_map.mp hlc
    exact titleIsSep_toLower_of_word (splitWords_token_word hw c hcw)
  constructor
  · unfold toCamelCase camelRenderClaim
    cases hsw : splitWords s with
    | nil => rfl
    | cons w ws =>
      show lowerStr w ++ (ws.map (fun w' => stringsTitle (lowerStr w'))).flatten
          = lowerStr w ++ (ws.map (fun w' => upperFirst (lowerStr w'))).flatten
      congr 1
      congr 1
      refine List.map_congr_left ?_
      intro w' hw'
      exact key w' (hsw ▸ List.mem_cons_of_mem _ hw')
  · unfold toPascalCase pascalRenderClaim
    congr 1
    refine List.map_congr_left ?_
    intro w' hw'
    exact key w' hw'

/-!
Claim C3: the hump boundary tests the previous raw input byte.
-/

theorem humpBoundary_of_not_upper {r : Nat} (h : isUpperCP r = false) (prev : Option Nat) :
    humpBoundary prev r = false := by
  cases prev <;> simp [humpBoundary, h]

theorem isUpperCP_of_range {U : Nat} (h1 : 65 ≤ U) (h2 : U ≤ 90) : isUpperCP U = true := by
  simp only [isUpperCP, decide_eq_true_eq]
  omega

theorem isLowerCP_of_range {a : Nat} (h1 : 97 ≤ a) (h2 : a ≤ 122) : isLowerCP a = true := by
  simp only [isLowerCP, decide_eq_true_eq]
  omega

theorem wordCharCP_of_lower {c : Nat} (h : isLowerCP c = true) : wordCharCP c = true := by
  simp [wordCharCP, isLetterCP, h]

theorem wordCharCP_of_upper {c : Nat} (h : isUpperCP c = true) : wordCharCP c = true := by
  simp [wordCharCP, isLetterCP, h]

theorem splitWordsAux_head_pfx (rest : Str) :
    ∀ (prev : Option Nat) (acc : Str), acc ≠ [] →
      ∃ t ts, splitWordsAux prev acc rest = t :: ts ∧ ∃ d, t = acc ++ d := by
  induction rest with
  | nil =>
    intro prev acc hacc
    refine ⟨acc, [], ?_, [], by simp⟩
    simp [splitWordsAux, hacc]
  | cons r rest ih =>
    intro prev acc hacc
    by_cases hw : wordCharCP r = true
    · by_cases hb : (humpBoundary prev r && decide (acc ≠ [])) = true
      · refine ⟨acc, splitWordsAux (some r) [r] rest, ?_, [], by simp⟩
        simp only [splitWordsAux, hw, if_true]
        rw [if_pos hb]
      · obtain ⟨t, ts, heq, d, hd⟩ := ih (some r) (acc ++ [r]) (by simp)
        refine ⟨t, ts, ?_, [r] ++ d, by simp [hd]⟩
        simp only [splitWordsAux, hw, if_true]
        rw [if_neg hb]
        exact heq
    · refine ⟨acc, splitWordsAux (some r) [] rest, ?_, [], by simp⟩
      simp only [splitWordsAux, hw, Bool.false_eq_true, if_false]
      rw [if_neg hacc]

theorem splitWordsAux_no_hump (post : Str) (c U : Nat)
    (hcl : isLowerCP c = true) (hlb : isLowerCP (utf8LastByte c) = false)
    (hU1 : 65 ≤ U) (hU2 : U ≤ 90) :
    ∀ (pre : Str) (prev : Option Nat) (acc : Str),
      ∃ t, t ∈ splitWordsAux prev acc (pre ++ c :: U :: post) ∧
        ∃ u v, t = u ++ c :: U :: v := by
  intro pre
  induction pre with
  | nil =>
    intro prev acc
    have hwc : wordCharCP c = true := wordCharCP_of_lower hcl
    have hbc : humpBoundary prev c = false :=
      humpBoundary_of_not_upper (isLowerCP_not_upper hcl) prev
    have hwU : wordCharCP U = true := wordCharCP_of_upper (isUpperCP_of_range hU1 hU2)
    have hbU : humpBoundary (some c) U = false := by
      simp [humpBoundary, hlb]
    simp only [List.nil_append, splitWordsAux, hwc, if_true, hbc, Bool.false_and,
      Bool.false_eq_true, if_false, hwU, hbU]
    obtain ⟨t, ts, heq, d, hd⟩ :=
      splitWordsAux_head_pfx post (some U) ((acc ++ [c]) ++ [U]) (by simp)
    refine ⟨t, ?_, acc, d, ?_⟩
    · rw [heq]
      exact List.mem_cons_self t ts
    · rw [hd]
      simp
  | cons p pre ih =>
    intro prev acc
    by_cases hw : wordCharCP p = true
    · by_cases hb : (humpBoundary prev p && decide (acc ≠ [])) = true
      · obtain ⟨t, hmem, u, v, ht⟩ := ih (some p) [p]
        refine ⟨t, ?_, u, v, ht⟩
        simp only [List.cons_append, splitWordsAux, hw, if_true, hb]
        exact List.mem_cons_of_mem _ hmem
      · obtain ⟨t, hmem, u, v, ht⟩ := ih (some p) (acc ++ [p])
        refine ⟨t, ?_, u, v, ht⟩
        simpa only [List.cons_append, splitWordsAux, hw, if_true, hb, Bool.false_eq_true,
          if_false] using hmem
    · by_cases hacc : acc = []
      · obtain ⟨t, hmem, u, v, ht⟩ := ih (some p) []
        refine ⟨t, ?_, u, v, ht⟩
        simpa only [List.cons_append, splitWordsAux, hw, Bool.false_eq_true, if_false,
          if_pos hacc] using hmem
      · obtain ⟨t, hmem, u, v, ht⟩ := ih (some p) []
        refine ⟨t, ?_, u, v, ht⟩
        simp only [List.cons_append, splitWordsAux, hw, Bool.false_eq_true, if_false,
          if_neg hacc]
        exact List.mem_cons_of_mem _ hmem

theorem splitWordsAux_hump (post : Str) (a U : Nat)
    (ha1 : 97 ≤ a) (ha2 : a ≤ 122) (hU1 : 65 ≤ U) (hU2 : U ≤ 90) :
    ∀ (pre : Str) (prev : Option Nat) (acc : Str),
      ∃ ws t1 t2 ts, splitWordsAux prev acc (pre ++ a :: U :: post) = ws ++ t1 :: t2 :: ts ∧
        (∃ u, t1 = u ++ [a]) ∧ (∃ v, t2 = U :: v) := by
  intro pre
  induction pre with
  | nil =>
    intro prev acc
    have hal : isLowerCP a = true := isLowerCP_of_range ha1 ha2
    have hwa : wordCharCP a = true := wordCharCP_of_lower hal
    have hba : humpBoundary prev a = false :=
      humpBoundary_of_not_upper (isLowerCP_not_upper hal) prev
    have hwU : wordCharCP U = true := wordCharCP_of_upper (isUpperCP_of_range hU1 hU2)
    have hbU : (humpBoundary (some a) U && decide ((acc ++ [a]) ≠ [])) = true := by
      simp only [humpBoundary, isUpperCP_of_range hU1 hU2, Bool.true_and]
      have hfb : utf8LastByte a = a := by
        unfold utf8LastByte
        rw [if_pos (by omega)]
      rw [hfb]
      simp [hal]
    simp only [List.nil_append, splitWordsAux, hwa, if_true, hba, Bool.false_and,
      Bool.false_eq_true, if_false, hwU, hbU]
    obtain ⟨t2, ts, heq, d, hd⟩ := splitWordsAux_head_pfx post (some U) [U] (by simp)
    exact ⟨[], acc ++ [a], t2, ts, by rw [heq]; simp, ⟨acc, rfl⟩, ⟨d, by simpa using hd⟩⟩
  | cons p pre ih =>
    intro prev acc
    by_cases hw : wordCharCP p = true
    · by_cases hb : (humpBoundary prev p && decide (acc ≠ [])) = true
      · obtain ⟨ws, t1, t2, ts, heq, h1, h2⟩ := ih (some p) [p]
        refine ⟨acc :: ws, t1, t2, ts, ?_, h1, h2⟩
        show splitWordsAux prev acc (p :: (pre ++ a :: U :: post)) = acc :: (ws ++ t1 :: t2 :: ts)
        simp only [splitWordsAux, hw, if_true]
        rw [if_pos hb]
        exact congrArg (List.cons acc) heq
      · obtain ⟨ws, t1, t2, ts, heq, h1, h2⟩ := ih (some p) (acc ++ [p])
        refine ⟨ws, t1, t2, ts, ?_, h1, h2⟩
        simpa only [List.cons_append, splitWordsAux, hw, if_true, hb, Bool.false_eq_true,
          if_false] using heq
    · by_cases hacc : acc = []
      · obtain ⟨ws, t1, t2, ts, heq, h1, h2⟩ := ih (some p) []
        refine ⟨ws, t1, t2, ts, ?_, h1, h2⟩
        simpa only [List.cons_append, splitWordsAux, hw, Bool.false_eq_true, if_false,
          if_pos hacc] using heq
      · obtain ⟨ws, t1, t2, ts, heq, h1, h2⟩ := ih (some p) []
        refine ⟨acc :: ws, t1, t2, ts, ?_, h1, h2⟩
        show splitWordsAux prev acc (p :: (pre ++ a :: U :: post)) = acc :: (ws ++ t1 :: t2 :: ts)
        simp only [splitWordsAux, hw, Bool.false_eq_true, if_false]
        rw [if_neg hacc]
        exact congrArg (List.cons acc) heq

/-- C3: the hump-split test compares `unicode.IsUpper` of the current
rune with `unicode.IsLower` of the previous raw input *byte*.  Hence
(first part) when an ASCII uppercase letter follows a lowercase letter
outside ASCII whose final UTF-8 byte does not decode to a lowercase
rune, no split happens: the two code points end up inside one common
token.  (Second part) when the preceding lowercase letter is ASCII, the
accumulator is flushed as a token ending in that letter and a new token
starts at the uppercase letter. -/
theorem c3_hump_boundary_raw_byte :
    (∀ (pre post : Str) (c U : Nat),
      128 ≤ c → isLowerCP c = true → isLowerCP (utf8LastByte c) = false →
      65 ≤ U → U ≤ 90 →
      ∃ t, t ∈ splitWords (pre ++ c :: U :: post) ∧ ∃ u v, t = u ++ c :: U :: v) ∧
    (∀ (pre post : Str) (a U : Nat),
      97 ≤ a → a ≤ 122 → 65 ≤ U → U ≤ 90 →
      ∃ ws t1 t2 ts, splitWords (pre ++ a :: U :: post) = ws ++ t1 :: t2 :: ts ∧
        (∃ u, t1 = u ++ [a]) ∧ (∃ v, t2 = U :: v)) := by
  constructor
  · intro pre post c U _ hcl hlb hU1 hU2
    exact splitWordsAux_no_hump post c U hcl hlb hU1 hU2 pre none []
  · intro pre post a U ha1 ha2 hU1 hU2
    exact splitWordsAux_hump post a U ha1 ha2 hU1 hU2 pre none []

/-- C3 witness: in `"mαBc"` (with `α` = U+03B1, whose trailing UTF-8
byte 0xB1 does not decode to a lowercase rune) the `α` and `B` stay in
one token, while in `"myVar"` the split happens between `y` and `V`. -/
theorem c3_witness :
    ((128 ≤ 945 ∧ isLowerCP 945 = true ∧ isLowerCP (utf8LastByte 945) = false ∧
      65 ≤ 66 ∧ 66 ≤ 90) ∧
     ∃ t, t ∈ splitWords (strLit ("m") ++ 945 :: 66 :: strLit ("c")) ∧
       ∃ u v, t = u ++ 945 :: 66 :: v) ∧
    ((97 ≤ 121 ∧ 121 ≤ 122 ∧ 65 ≤ 86 ∧ 86 ≤ 90) ∧
     ∃ ws t1 t2 ts,
       splitWords (strLit ("m") ++ 121 :: 86 :: strLit ("ar")) = ws ++ t1 :: t2 :: ts ∧
         (∃ u, t1 = u ++ [121]) ∧ (∃ v, t2 = 86 :: v)) :=
  ⟨⟨by decide,
    c3_hump_boundary_raw_byte.1 (strLit ("m")) (strLit ("c")) 945 66 (by decide) (by decide)
      (by decide) (by decide) (by decide)⟩,
   ⟨by decide,
    c3_hump_boundary_raw_byte.2 (strLit ("m")) (strLit ("ar")) 121 86 (by decide) (by decide)
      (by decide) (by decide)⟩⟩

/-!
Claim C5: `FindReplace` in case-insensitive mode.
-/

theorem expandGoF_no_dollar (matched : Str) :
    ∀ (f : Nat) (t : Str), t.length < f → (36 : Nat) ∉ t → expandGoF matched f t = t := by
  intro f
  induction f with
  | zero => intro t h _; omega
  | succ f ih =>
    intro t hlen hdollar
    match t with
    | [] => rfl
    | c :: rest =>
      have hc : c ≠ 36 := fun h => hdollar (h ▸ List.mem_cons_self c rest)
      simp only [expandGoF, if_neg hc]
      rw [ih rest (by simpa using hlen) (fun h => hdollar (List.mem_cons_of_mem _ h))]

theorem expandGo_no_dollar {rep : Str} (h : (36 : Nat) ∉ rep) (matched : Str) :
    expandGo matched rep = rep :=
  expandGoF_no_dollar matched (rep.length + 1) rep (by omega) h

theorem foldPfx_nil_right {find : Str} (h : find ≠ []) : foldPfx find [] = false := by
  match find with
  | [] => exact absurd rfl h
  | a :: as => rfl

theorem foldPfx_ne_nil {find v : Str} (h : find ≠ []) (hp : foldPfx find v = true) :
    v ≠ [] := by
  intro hv
  rw [hv, foldPfx_nil_right h] at hp
  exact Bool.false_ne_true hp

theorem findFoldFromF_some (find t : Str) :
    ∀ (fuel : Nat) (p m : Nat), findFoldFromF fuel find t p = some m →
      p ≤ m ∧ foldPfx find (t.drop m) = true ∧
        ∀ q, p ≤ q → q < m → foldPfx find (t.drop q) = false := by
  intro fuel
  induction fuel with
  | zero => intro p m h; exact absurd h (by simp [findFoldFromF])
  | succ fuel ih =>
    intro p m h
    simp only [findFoldFromF] at h
    by_cases hp : p > t.length
    · rw [if_pos hp] at h
      exact absurd h (by simp)
    · rw [if_neg hp] at h
      by_cases hm : foldPfx find (t.drop p) = true
      · rw [if_pos hm] at h
        obtain rfl : p = m := Option.some.inj h
        exact ⟨Nat.le_refl p, hm, fun q h1 h2 => by omega⟩
      · rw [if_neg hm] at h
        obtain ⟨h1, h2, h3⟩ := ih (p+1) m h
        refine ⟨by omega, h2, ?_⟩
        intro q hq1 hq2
        rcases Nat.eq_or_lt_of_le hq1 with rfl | hq
        · exact Bool.not_eq_true _ ▸ (by simpa using hm)
        · exact h3 q hq hq2

theorem findFoldFromF_none (find t : Str) (hfind : find ≠ []) :
    ∀ (fuel : Nat) (p : Nat), findFoldFromF fuel find t p = none →
      ∀ q, p ≤ q → q < p + fuel → foldPfx find (t.drop q) = false := by
  intro fuel
  induction fuel with
  | zero => intro p _ q _ h2; omega
  | succ fuel ih =>
    intro p h q hq1 hq2
    simp only [findFoldFromF] at h
    by_cases hp : p > t.length
    · have hlq : t.length ≤ q := by omega
      rw [List.drop_eq_nil_of_le hlq]
      exact foldPfx_nil_right hfind
    · rw [if_neg hp] at h
      by_cases hm : foldPfx find (t.drop p) = true
      · rw [if_pos hm] at h
        exact absurd h (by simp)
      · rw [if_neg hm] at h
        rcases Nat.eq_or_lt_of_le hq1 with rfl | hq
        · simpa using hm
        · exact ih (p+1) h q hq (by omega)

theorem findFoldFrom_none (find t : Str) (hf : find ≠ []) (p : Nat)
    (h : findFoldFrom find t p = none) :
    ∀ q, p ≤ q → foldPfx find (t.drop q) = false := by
  intro q hq
  by_cases hql : q ≤ t.length
  · exact findFoldFromF_none find t hf _ p h q hq (by omega)
  · rw [List.drop_eq_nil_of_le (by omega)]
    exact foldPfx_nil_right hf

theorem findFoldFrom_some (find t : Str) (p m : Nat) (h : findFoldFrom find t p = some m) :
    p ≤ m ∧ foldPfx find (t.drop m) = true ∧
      ∀ q, p ≤ q → q < m → foldPfx find (t.drop q) = false :=
  findFoldFromF_some find t _ p m h

theorem literalCIF_nil (find rep : Str) (f : Nat) : literalCIF find rep f [] = [] := by
  match f with
  | 0 => rfl
  | f+1 => rfl

theorem literalCIF_no_match (find rep : Str) (hf : find ≠ []) :
    ∀ (f : Nat) (u : Str), u.length ≤ f →
      (∀ q, foldPfx find (u.drop q) = false) → literalCIF find rep f u = u := by
  intro f
  induction f with
  | zero =>
    intro u hu _
    interval_cases hu2 : u.length
    · rw [List.length_eq_zero.mp hu2]
      rfl
  | succ f ih =>
    intro u hu hno
    match u with
    | [] => rfl
    | c :: cs =>
      have h0 : foldPfx find (c :: cs) = false := by simpa using hno 0
      simp only [literalCIF, h0, Bool.false_eq_true, if_false]
      rw [ih cs (by simpa using hu) (fun q => by simpa using hno (q+1))]

theorem literalCIF_fuel (find rep : Str) (hf : find ≠ []) :
    ∀ (f1 f2 : Nat) (u : Str), u.length < f1 → u.length < f2 →
      literalCIF find rep f1 u = literalCIF find rep f2 u := by
  intro f1
  induction f1 with
  | zero => intro f2 u h1 _; omega
  | succ f1 ih =>
    intro f2 u h1 h2
    match u with
    | [] => rw [literalCIF_nil, literalCIF_nil]
    | c :: cs =>
      match f2, h2 with
      | f2+1, h2 =>
        by_cases hm : foldPfx find (c :: cs) = true
        · simp only [literalCIF, hm, if_true]
          congr 1
          have hfl : 1 ≤ find.length := by
            match find with
            | [] => exact absurd rfl hf
            | a :: as => simp
          have hdl : ((c :: cs).drop find.length).length = (c :: cs).length - find.length :=
            List.length_drop _ _
          simp only [List.length_cons] at hdl h1 h2
          exact ih f2 _ (by omega) (by omega)
        · simp only [literalCIF, hm, Bool.false_eq_true, if_false]
          congr 1
          simp only [List.length_cons] at h1 h2
          exact ih f2 cs (by omega) (by omega)

theorem literalCIF_jump (find rep : Str) (hf : find ≠ []) :
    ∀ (m : Nat) (f : Nat) (u : Str), u.length ≤ f →
      (∀ q, q < m → foldPfx find (u.drop q) = false) →
      foldPfx find (u.drop m) = true →
      literalCIF find rep f u
        = u.take m ++ rep ++ literalCIF find rep (f - m - 1) (u.drop (m + find.length)) := by
  intro m
  induction m with
  | zero =>
    intro f u hu hno hm
    simp only [List.drop_zero] at hm
    have hne : u ≠ [] := foldPfx_ne_nil hf hm
    match u, f with
    | c :: cs, f+1 =>
      simp only [literalCIF, hm, if_true, List.take_zero, List.nil_append]
      have hff : f + 1 - 0 - 1 = f := by omega
      rw [hff]
      simp
    | c :: cs, 0 => simp at hu
    | [], _ => exact absurd rfl hne
  | succ m ih =>
    intro f u hu hno hm
    have hne : u ≠ [] := by
      intro h
      subst h
      rw [List.drop_eq_nil_of_le (by simp)] at hm
      rw [foldPfx_nil_right hf] at hm
      exact Bool.false_ne_true hm
    match u, f with
    | c :: cs, f+1 =>
      have h0 : foldPfx find (c :: cs) = false := by simpa using hno 0 (by omega)
      simp only [literalCIF, h0, Bool.false_eq_true, if_false]
      rw [ih f cs (by simpa using hu) (fun q hq => by simpa using hno (q+1) (by omega))
        (by simpa using hm)]
      simp only [List.take_succ_cons, List.cons_append, List.drop_succ_cons]
      have hff : f + 1 - (m + 1) - 1 = f - m - 1 := by omega
      have hdi : m + 1 + find.length = (m + find.length) + 1 := by omega
      rw [hff, hdi, List.drop_succ_cons]
    | c :: cs, 0 => simp at hu
    | [], _ => exact absurd rfl hne

theorem replLoopF_literal (find rep : Str) (hf : find ≠ []) (hrep : (36 : Nat) ∉ rep)
    (t : Str) :
    ∀ (f p : Nat) (buf : Str), t.length - p < f →
      replLoopF find rep f t p p buf
        = buf ++ literalCIF find rep ((t.drop p).length + 1) (t.drop p) := by
  intro f
  induction f with
  | zero => intro p buf h; omega
  | succ f ih =>
    intro p buf hfuel
    by_cases hp : p > t.length
    · simp only [replLoopF, if_pos hp]
      rw [List.drop_eq_nil_of_le (by omega), literalCIF_nil]
    · simp only [replLoopF, if_neg hp]
      cases hff : findFoldFrom find t p with
      | none =>
        rw [literalCIF_no_match find rep hf _ _ (by omega) (fun q => by
          rw [List.drop_drop]
          exact findFoldFrom_none find t hf p hff (p + q) (by omega))]
      | some m =>
        obtain ⟨hpm, hmatch, hnomatch⟩ := findFoldFrom_some find t p m hff
        have hfl : 1 ≤ find.length := by
          match find with
          | [] => exact absurd rfl hf
          | a :: as => simp
        have hmlen : m < t.length := by
          have hne := foldPfx_ne_nil hf hmatch
          have := List.length_drop m t
          by_cases hml : m < t.length
          · exact hml
          · exact absurd (List.drop_eq_nil_of_le (by omega)) hne
        have he1 : m + find.length > p := by omega
        dsimp only
        rw [if_pos (Or.inl he1)]
        rw [expandGo_no_dollar hrep]
        have hwidth : (if p < t.length then 1 else 0) = 1 := if_pos (by omega)
        rw [hwidth]
        have hsp1 : ¬(p + 1 > m + find.length) := by omega
        rw [if_neg hsp1, if_neg hsp1]
        rw [literalCIF_jump find rep hf (m - p) _ _ (by omega)
          (fun q hq => by
            rw [List.drop_drop]
            exact hnomatch (p + q) (by omega) (by omega))
          (by rw [List.drop_drop, Nat.add_sub_cancel' hpm]; exact hmatch)]
        rw [List.drop_drop, show p + (m - p + find.length) = m + find.length from by omega]
        rw [ih (m + find.length) _ (by omega)]
        rw [literalCIF_fuel find rep hf ((t.drop p).length + 1 - (m - p) - 1)
          ((t.drop (m + find.length)).length + 1) (t.drop (m + find.length)) (by
            simp only [List.length_drop]
            omega) (by omega)]
        rw [List.take_drop]
        simp only [List.append_assoc]

theorem findFoldFrom_empty (t : Str) (p : Nat) (hp : p ≤ t.length) :
    findFoldFrom [] t p = some p := by
  unfold findFoldFrom
  have : t.length + 1 - p = (t.length - p) + 1 := by omega
  rw [this]
  simp only [findFoldFromF, if_neg (by omega : ¬p > t.length)]
  rw [if_pos (show foldPfx [] (List.drop p t) = true from rfl)]

theorem replLoopF_empty_find (rep : Str) (hrep : (36 : Nat) ∉ rep) (t : Str) :
    ∀ (f sp : Nat) (buf : Str), 1 ≤ sp → sp ≤ t.length + 1 → t.length + 2 - sp ≤ f →
      replLoopF [] rep f t sp (sp - 1) buf
        = buf ++ ((t.drop (sp - 1)).map (fun c => c :: rep)).flatten := by
  intro f
  induction f with
  | zero => intro sp buf h1 h2 h3; omega
  | succ f ih =>
    intro sp buf h1 h2 hfuel
    by_cases hsp : sp > t.length
    · have hsp1 : sp - 1 = t.length := by omega
      simp only [replLoopF, if_pos hsp, hsp1]
      rw [List.drop_eq_nil_of_le (Nat.le_refl _)]
      simp
    · simp only [replLoopF, if_neg hsp]
      rw [findFoldFrom_empty t sp (by omega)]
      simp only [List.length_nil, Nat.add_zero]
      rw [if_pos (Or.inl (by omega : sp > sp - 1))]
      have hmatched : (t.drop sp).take 0 = [] := List.take_zero _
      rw [hmatched, expandGo_no_dollar hrep]
      have hlt : sp - 1 < t.length := by omega
      have hdrop : t.drop (sp - 1) = t[sp-1] :: t.drop sp := by
        have hd2 := List.drop_eq_getElem_cons hlt
        rw [show sp - 1 + 1 = sp from by omega] at hd2
        exact hd2
      have htake : (t.drop (sp - 1)).take (sp - (sp - 1)) = [t[sp-1]] := by
        rw [hdrop, show sp - (sp - 1) = 1 from by omega]
        rfl
      rw [htake]
      have hsp2 : (if sp + (if sp < t.length then 1 else 0) > sp then
          sp + (if sp < t.length then 1 else 0)
          else if sp + 1 > sp then sp + 1 else sp) = sp + 1 := by
        by_cases hl : sp < t.length
        · rw [if_pos hl, if_pos (by omega)]
        · rw [if_neg hl]
          simp only [Nat.add_zero]
          rw [if_neg (by omega), if_pos (by omega)]
      rw [hsp2]
      have hih := ih (sp + 1) (buf ++ [t[sp - 1]] ++ rep) (by omega) (by omega) (by omega)
      simp only [Nat.add_sub_cancel] at hih
      rw [hih, hdrop]
      simp


theorem replLoopF_empty_start (rep : Str) (hrep : (36 : Nat) ∉ rep) (t : Str)
    (f : Nat) (hf : t.length + 1 ≤ f) (buf : Str) :
    replLoopF [] rep (f + 1) t 0 0 buf
      = buf ++ rep ++ ((t.map (fun c => c :: rep)).flatten) := by
  simp only [replLoopF, if_neg (by omega : ¬(0 : Nat) > t.length)]
  rw [findFoldFrom_empty t 0 (Nat.zero_le _)]
  dsimp only
  simp only [List.length_nil, Nat.add_zero, List.drop_zero, List.take_zero, Nat.sub_self]
  rw [if_pos (show ((0 : Nat) > 0 ∨ True) from Or.inr trivial), expandGo_no_dollar hrep]
  have hsp2 : (if (0 + if 0 < t.length then 1 else 0) > 0 then 0 + if 0 < t.length then 1 else 0
      else if 0 + 1 > 0 then 0 + 1 else 0) = 1 := by
    by_cases hl : 0 < t.length <;> simp [hl]
  rw [hsp2]
  have hih := replLoopF_empty_find rep hrep t f 1 (buf ++ [] ++ rep) (Nat.le_refl _)
    (by omega) (by omega)
  simp only [Nat.sub_self, List.drop_zero, List.append_nil] at hih
  simpa using hih

/-- C5 counterexample: with `caseSensitive=false` the replacement text
goes through Go's `Expand`, so `FindReplace("abc", "b", "$1", false)`
inserts the (empty) first capture group rather than the literal string
`$1`: the result is `"ac"`, not `"a$1c"`. -/
theorem c5_counterexample :
    FindReplace (strLit ("abc")) (strLit ("b")) (strLit ("$1")) false = strLit ("ac") ∧
    FindReplace (strLit ("abc")) (strLit ("b")) (strLit ("$1")) false ≠ strLit ("a$1c") :=
  ⟨by decide, by decide⟩

/-- C5 as amended: case-insensitive `FindReplace` replaces every
leftmost non-overlapping case-insensitive occurrence of the literal
`find` (metacharacters carry no meaning), inserting the replacement
through Go template expansion; whenever the replacement contains no
`$`, it is inserted literally, matching the specification scanner. -/
theorem c5_literal_replacement (t find rep : Str) (h : (36 : Nat) ∉ rep) :
    FindReplace t find rep false = literalReplaceCI t find rep := by
  by_cases hfind : find = []
  · subst hfind
    unfold literalReplaceCI
    rw [if_pos rfl]
    show replLoopF [] rep (t.length + 2) t 0 0 [] = _
    have := replLoopF_empty_start rep h t (t.length + 1) (Nat.le_refl _) []
    rw [show t.length + 1 + 1 = t.length + 2 from rfl] at this
    rw [this]
    simp
  · unfold literalReplaceCI
    rw [if_neg hfind]
    show replLoopF find rep (t.length + 2) t 0 0 [] = _
    have := replLoopF_literal find rep hfind h t (t.length + 2) 0 [] (by omega)
    simpa using this

/-- C5 witness: the specification's scenario
`findReplace("Hello HELLO hello", "hello", "hi", false) = "hi hi hi"`
holds, with the dollar-free replacement inserted literally. -/
theorem c5_witness :
    ((36 : Nat) ∉ strLit ("hi")) ∧
    FindReplace (strLit ("Hello HELLO hello")) (strLit ("hello")) (strLit ("hi")) false
      = strLit ("hi hi hi") :=
  ⟨by decide,
   (c5_literal_replacement (strLit ("Hello HELLO hello")) (strLit ("hello")) (strLit ("hi"))
     (by decide)).trans (by decide)⟩

/-!
Claim C4: `SortLines` and the stability of `sort.Slice`.
-/

/-- C4 counterexample: on thirteen lines `sort.Slice`'s pdqsort takes
the quicksort path (the insertion-sort cutoff is twelve) and its Hoare
partition reorders the case-insensitively equal pair `"X"`/`"x"`: the
input has `"X"` at line 7 and `"x"` at line 8, but the ascending output
has `"x"` before `"X"`. -/
theorem c4_counterexample :
    SortLines (strLit ("j\nd\ne\ni\nb\nf\nc\nX\nx\nk\ng\na\nh")) true
      = strLit ("a\nb\nc\nd\ne\nf\ng\nh\ni\nj\nk\nx\nX") ∧
    lowerStr (strLit ("X")) = lowerStr (strLit ("x")) ∧
    firstPos (strLit ("X")) (splitNl (strLit ("j\nd\ne\ni\nb\nf\nc\nX\nx\nk\ng\na\nh"))) = 7 ∧
    firstPos (strLit ("x")) (splitNl (strLit ("j\nd\ne\ni\nb\nf\nc\nX\nx\nk\ng\na\nh"))) = 8 ∧
    firstPos (strLit ("x"))
      (splitNl (SortLines (strLit ("j\nd\ne\ni\nb\nf\nc\nX\nx\nk\ng\na\nh")) true)) = 11 ∧
    firstPos (strLit ("X"))
      (splitNl (SortLines (strLit ("j\nd\ne\ni\nb\nf\nc\nX\nx\nk\ng\na\nh")) true)) = 12 :=
  ⟨by decide, by decide, by decide, by decide, by decide, by decide⟩

theorem ltStr_irrefl (a : Str) : ltStr a a = false := by
  induction a with
  | nil => rfl
  | cons x xs ih => simp [ltStr, ih]

theorem ltStr_asymm : ∀ a b : Str, ltStr a b = true → ltStr b a = false := by
  intro a
  induction a with
  | nil =>
    intro b h
    match b with
    | [] => simp [ltStr] at h
    | y :: ys => rfl
  | cons x xs ih =>
    intro b h
    match b with
    | [] => simp [ltStr] at h
    | y :: ys =>
      simp only [ltStr] at h ⊢
      by_cases h1 : x < y
      · rw [if_pos h1] at h
        rw [if_neg (by omega), if_pos h1]
      · rw [if_neg h1] at h
        by_cases h2 : y < x
        · rw [if_pos h2] at h
          simp at h
        · rw [if_neg h2] at h
          rw [if_neg h2, if_neg h1]
          exact ih ys h

theorem ltStr_trans : ∀ a b c : Str, ltStr a b = true → ltStr b c = true → ltStr a c = true := by
  intro a
  induction a with
  | nil =>
    intro b c h1 h2
    match b, c with
    | [], _ => simp [ltStr] at h1
    | y :: ys, [] => simp [ltStr] at h2
    | y :: ys, z :: zs => rfl
  | cons x xs ih =>
    intro b c h1 h2
    match b, c with
    | [], _ => simp [ltStr] at h1
    | y :: ys, [] => simp [ltStr] at h2
    | y :: ys, z :: zs =>
      simp only [ltStr] at h1 h2 ⊢
      by_cases hxy : x < y
      · rw [if_pos hxy] at h1
        by_cases hyz : y < z
        · rw [if_pos (by omega : x < z)]
        · rw [if_neg hyz] at h2
          by_cases hzy : z < y
          · rw [if_pos hzy] at h2
            simp at h2
          · rw [if_pos (by omega : x < z)]
      · rw [if_neg hxy] at h1
        by_cases hyx : y < x
        · rw [if_pos hyx] at h1
          simp at h1
        · rw [if_neg hyx] at h1
          by_cases hyz : y < z
          · rw [if_pos (by omega : x < z)]
          · rw [if_neg hyz] at h2
            by_cases hzy : z < y
            · rw [if_pos hzy] at h2
              simp at h2
            · rw [if_neg hzy] at h2
              rw [if_neg (by omega : ¬x < z), if_neg (by omega : ¬z < x)]
              exact ih ys zs h1 h2

theorem ltStr_connex : ∀ a b : Str, ltStr a b = false → ltStr b a = false → a = b := by
  intro a
  induction a with
  | nil =>
    intro b h1 _
    match b with
    | [] => rfl
    | y :: ys => simp [ltStr] at h1
  | cons x xs ih =>
    intro b h1 h2
    match b with
    | [] => simp [ltStr] at h2
    | y :: ys =>
      simp only [ltStr] at h1 h2
      by_cases hxy : x < y
      · rw [if_pos hxy] at h1
        simp at h1
      · rw [if_neg hxy] at h1
        by_cases hyx : y < x
        · rw [if_pos hyx] at h2
          simp at h2
        · rw [if_neg hyx] at h1
          rw [if_neg hyx, if_neg hxy] at h2
          have hxy2 : x = y := by omega
          rw [hxy2, ih ys h1 h2]

theorem ltStr_negtrans {a b c : Str} (h1 : ltStr a b = false) (h2 : ltStr b c = false) :
    ltStr a c = false := by
  by_cases hac : ltStr a c = true
  · by_cases hba : ltStr b a = true
    · have := ltStr_trans b a c hba hac
      rw [this] at h2
      exact absurd h2 (by simp)
    · have hab : a = b := ltStr_connex a b h1 (by simpa using hba)
      rw [hab] at hac
      rw [hac] at h2
      exact absurd h2 (by simp)
  · simpa using hac

theorem sortLess_tie (asc : Bool) {x y : Str} (h : lowerStr x = lowerStr y) :
    sortLess asc x y = false := by
  unfold sortLess
  cases asc <;> simp [h, ltStr_irrefl]

theorem sortLess_asymm (asc : Bool) {x y : Str} (h : sortLess asc x y = true) :
    sortLess asc y x = false := by
  unfold sortLess at h ⊢
  cases asc <;> simpa using ltStr_asymm _ _ (by simpa using h)

theorem sortLess_negtrans (asc : Bool) {x y z : Str} (h1 : sortLess asc x y = false)
    (h2 : sortLess asc y z = false) : sortLess asc x z = false := by
  unfold sortLess at h1 h2 ⊢
  cases asc
  · simpa using ltStr_negtrans (by simpa using h2) (by simpa using h1)
  · simpa using ltStr_negtrans (by simpa using h1) (by simpa using h2)

/-- Insertion of a new element into the reversed sorted prefix: walk
left past every element the new one is `less` than (mirror image of the
inner sift loop of `insertionSort_func`). -/
def insertRRev (less : Str → Str → Bool) (x : Str) : List Str → List Str
  | [] => [x]
  | y :: rs => if less x y then y :: insertRRev less x rs else x :: y :: rs

/-- Functional form of one outer-loop step of `insertionSort_func`:
insert the element coming from the right end of the sorted prefix. -/
def insertR (less : Str → Str → Bool) (x : Str) (S : List Str) : List Str :=
  (insertRRev less x S.reverse).reverse

/-- Functional form of `insertionSort_func(data, 0, len)`. -/
def insertionSortFun (less : Str → Str → Bool) (l : List Str) : List Str :=
  l.foldl (fun acc x => insertR less x acc) []

theorem insertRRev_length (less : Str → Str → Bool) (x : Str) :
    ∀ P : List Str, (insertRRev less x P).length = P.length + 1 := by
  intro P
  induction P with
  | nil => rfl
  | cons y rs ih =>
    simp only [insertRRev]
    split_ifs <;> simp [ih]

theorem insertR_length (less : Str → Str → Bool) (x : Str) (S : List Str) :
    (insertR less x S).length = S.length + 1 := by
  simp [insertR, insertRRev_length]

theorem insSortInner_bridge (less : Str → Str → Bool) (x : Str) :
    ∀ (P : List Str) (R : List Str),
      insSortInner less 0 (P.reverse ++ x :: R) P.reverse.length
        = (insertRRev less x P).reverse ++ R := by
  intro P
  induction P with
  | nil =>
    intro R
    simp [insSortInner, insertRRev]
  | cons y P ih =>
    intro R
    have hlen : (y :: P).reverse.length = P.length + 1 := by simp
    rw [hlen]
    have hget1 : getL (P.reverse ++ y :: x :: R) P.length = y := by
      have := getD_append_cons P.reverse (x :: R) y ([] : Str)
      simpa [getL] using this
    have hget2 : getL (P.reverse ++ y :: x :: R) (P.length + 1) = x := by
      have := getD_append_cons (P.reverse ++ [y]) R x ([] : Str)
      simpa [getL, List.append_assoc] using this
    have harr : (y :: P).reverse ++ x :: R = P.reverse ++ y :: x :: R := by simp
    rw [harr]
    simp only [insSortInner, hget1, hget2, decide_eq_true_eq]
    by_cases hl : less x y = true
    · rw [if_pos (by simp [hl])]
      have hsw : swapIdx (P.reverse ++ y :: x :: R) P.length (P.length + 1)
          = P.reverse ++ x :: y :: R := by
        have := swapIdx_append P.reverse ([] : List Str) R y x
        simpa using this
      rw [hsw]
      have := ih (y :: R)
      rw [show P.reverse.length = P.length from by simp] at this
      rw [this]
      simp [insertRRev, hl]
    · rw [if_neg (by simp [hl])]
      simp only [insertRRev, hl, Bool.false_eq_true, if_false]
      simp

theorem insSortOuter_bridge (less : Str → Str → Bool) :
    ∀ (R S : List Str),
      insSortOuter less 0 (S ++ R) S.length R.length
        = R.foldl (fun acc x => insertR less x acc) S := by
  intro R
  induction R with
  | nil => intro S; simp [insSortOuter]
  | cons x R ih =>
    intro S
    show insSortOuter less 0 (S ++ x :: R) S.length (R.length + 1) = _
    simp only [insSortOuter]
    have hinner : insSortInner less 0 (S ++ x :: R) S.length = insertR less x S ++ R := by
      have := insSortInner_bridge less x S.reverse R
      simpa [insertR] using this
    rw [hinner]
    have hlen : (insertR less x S).length = S.length + 1 := insertR_length less x S
    rw [show S.length + 1 = (insertR less x S).length from hlen.symm]
    rw [ih (insertR less x S)]
    simp

theorem insertionSortGo_eq_fun (less : Str → Str → Bool) (l : List Str) :
    insertionSortGo less l 0 l.length = insertionSortFun less l := by
  match l with
  | [] => rfl
  | x :: R =>
    show insSortOuter less 0 (x :: R) 1 ((x :: R).length - 1) = _
    have h1 : (x :: R).length - 1 = R.length := by simp
    rw [h1]
    have := insSortOuter_bridge less R [x]
    simp only [List.singleton_append, List.length_singleton] at this
    rw [this]
    unfold insertionSortFun
    simp only [List.foldl_cons]
    rfl

theorem sortSliceGo_small (less : Str → Str → Bool) (l : List Str) (h : l.length ≤ 12) :
    sortSliceGo less l = insertionSortFun less l := by
  unfold sortSliceGo
  simp only [pdqsortF]
  rw [if_pos (by omega : l.length - 0 ≤ 12)]
  simpa using insertionSortGo_eq_fun less l

theorem insertRRev_filter (less : Str → Str → Bool)
    (htie : ∀ a b : Str, lowerStr a = lowerStr b → less a b = false) (x : Str) (k : Str) :
    ∀ P : List Str,
      (insertRRev less x P).filter (fun y => lowerStr y = k)
        = (x :: P).filter (fun y => lowerStr y = k) := by
  intro P
  induction P with
  | nil => rfl
  | cons y rs ih =>
    simp only [insertRRev]
    by_cases hl : less x y = true
    · rw [if_pos hl]
      simp only [List.filter_cons, ih, List.filter_cons]
      by_cases hyk : lowerStr y = k
      · have hxk : ¬lowerStr x = k := by
          intro h2
          have := htie x y (h2.trans hyk.symm)
          rw [this] at hl
          exact absurd hl (by simp)
        simp [hyk, hxk]
      · by_cases hxk : lowerStr x = k <;> simp [hyk, hxk]
    · rw [if_neg hl]

theorem insertR_filter (less : Str → Str → Bool)
    (htie : ∀ a b : Str, lowerStr a = lowerStr b → less a b = false) (x : Str) (k : Str)
    (S : List Str) :
    (insertR less x S).filter (fun y => lowerStr y = k)
      = (S ++ [x]).filter (fun y => lowerStr y = k) := by
  unfold insertR
  rw [List.filter_reverse, insertRRev_filter less htie x k S.reverse]
  rw [List.filter_append]
  simp only [List.filter_cons]
  by_cases hxk : lowerStr x = k
  · simp [hxk, List.filter_reverse]
  · simp [hxk, List.filter_reverse]

theorem insertionSortFun_filter (less : Str → Str → Bool)
    (htie : ∀ a b : Str, lowerStr a = lowerStr b → less a b = false) (k : Str) :
    ∀ (R S : List Str),
      (R.foldl (fun acc x => insertR less x acc) S).filter (fun y => lowerStr y = k)
        = S.filter (fun y => lowerStr y = k) ++ R.filter (fun y => lowerStr y = k) := by
  intro R
  induction R with
  | nil => intro S; simp
  | cons x R ih =>
    intro S
    simp only [List.foldl_cons]
    rw [ih (insertR less x S), insertR_filter less htie x k S]
    rw [List.filter_append]
    simp only [List.filter_cons]
    by_cases hxk : lowerStr x = k
    · simp [hxk]
    · simp [hxk]

theorem mem_insertRRev (less : Str → Str → Bool) (x : Str) :
    ∀ (P : List Str) (b : Str), b ∈ insertRRev less x P → b = x ∨ b ∈ P := by
  intro P
  induction P with
  | nil =>
    intro b hb
    simp only [insertRRev, List.mem_singleton] at hb
    exact Or.inl hb
  | cons y rs ih =>
    intro b hb
    simp only [insertRRev] at hb
    by_cases hl : less x y = true
    · rw [if_pos hl] at hb
      rcases List.mem_cons.mp hb with rfl | hb2
      · exact Or.inr (List.mem_cons_self _ _)
      · rcases ih b hb2 with h | h
        · exact Or.inl h
        · exact Or.inr (List.mem_cons_of_mem _ h)
    · rw [if_neg hl] at hb
      rcases List.mem_cons.mp hb with rfl | hb2
      · exact Or.inl rfl
      · exact Or.inr hb2

theorem insertRRev_pairwise (less : Str → Str → Bool)
    (hasymm : ∀ a b : Str, less a b = true → less b a = false)
    (hneg : ∀ a b c : Str, less a b = false → less b c = false → less a c = false)
    (x : Str) :
    ∀ P : List Str, P.Pairwise (fun a b => less a b = false) →
      (insertRRev less x P).Pairwise (fun a b => less a b = false) := by
  intro P
  induction P with
  | nil => intro _; simp [insertRRev]
  | cons y rs ih =>
    intro hp
    rw [List.pairwise_cons] at hp
    obtain ⟨hy, hrs⟩ := hp
    simp only [insertRRev]
    by_cases hl : less x y = true
    · rw [if_pos hl]
      rw [List.pairwise_cons]
      refine ⟨?_, ih hrs⟩
      intro b hb
      rcases mem_insertRRev less x rs b hb with rfl | hbp
      · exact hasymm b y hl
      · exact hy b hbp
    · rw [if_neg hl]
      rw [List.pairwise_cons]
      constructor
      · intro b hb
        rcases List.mem_cons.mp hb with rfl | hbrs
        · simpa using hl
        · exact hneg x y b (by simpa using hl) (hy b hbrs)
      · exact List.pairwise_cons.mpr ⟨hy, hrs⟩

theorem insertR_pairwise (less : Str → Str → Bool)
    (hasymm : ∀ a b : Str, less a b = true → less b a = false)
    (hneg : ∀ a b c : Str, less a b = false → less b c = false → less a c = false)
    (x : Str) (S : List Str) (hs : S.Pairwise (fun a b => less b a = false)) :
    (insertR less x S).Pairwise (fun a b => less b a = false) := by
  unfold insertR
  have hs2 : (S.reverse).Pairwise (fun a b => less a b = false) := by
    rw [List.pairwise_reverse]
    exact hs
  have h3 := insertRRev_pairwise less hasymm hneg x S.reverse hs2
  rw [List.pairwise_reverse]
  exact h3

theorem insertionSortFun_pairwise (less : Str → Str → Bool)
    (hasymm : ∀ a b : Str, less a b = true → less b a = false)
    (hneg : ∀ a b c : Str, less a b = false → less b c = false → less a c = false) :
    ∀ (R S : List Str), S.Pairwise (fun a b => less b a = false) →
      (R.foldl (fun acc x => insertR less x acc) S).Pairwise (fun a b => less b a = false) := by
  intro R
  induction R with
  | nil => intro S hs; exact hs
  | cons x R ih =>
    intro S hs
    simp only [List.foldl_cons]
    exact ih (insertR less x S) (insertR_pairwise less hasymm hneg x S hs)

/-- C4 as amended: `SortLines` splits on newline, sorts the lines by
case-insensitive comparison in the requested direction, and joins with
newline, but the sort is Go's `sort.Slice`, whose pdqsort is not
stable; for inputs of at most twelve lines (the pdqsort insertion-sort
cutoff) the sort is an insertion sort, the output is sorted with no
inversion under the comparison, and any two case-insensitively equal
lines keep their relative input order (the lines of each
case-insensitive key are preserved in order). -/
theorem c4_sort_lines_small (s : Str) (asc : Bool) (h : (splitNl s).length ≤ 12) :
    SortLines s asc = joinNl (insertionSortFun (sortLess asc) (splitNl s)) ∧
    (insertionSortFun (sortLess asc) (splitNl s)).Pairwise
      (fun a b => sortLess asc b a = false) ∧
    (∀ k : Str,
      (insertionSortFun (sortLess asc) (splitNl s)).filter (fun y => lowerStr y = k)
        = (splitNl s).filter (fun y => lowerStr y = k)) := by
  refine ⟨?_, ?_, ?_⟩
  · unfold SortLines
    rw [sortSliceGo_small (sortLess asc) (splitNl s) h]
  · exact insertionSortFun_pairwise (sortLess asc)
      (fun a b => sortLess_asymm asc)
      (fun a b c => sortLess_negtrans asc)
      (splitNl s) [] (by simp)
  · intro k
    unfold insertionSortFun
    rw [insertionSortFun_filter (sortLess asc) (fun a b => sortLess_tie asc) k (splitNl s) []]
    simp

/-- C4 witness: the specification's sort scenario:
`SortLines("banana\nApple\ncherry", true) = "Apple\nbanana\ncherry"`,
derived from the amended theorem. -/
theorem c4_witness :
    ((splitNl (strLit ("banana\nApple\ncherry"))).length ≤ 12) ∧
    SortLines (strLit ("banana\nApple\ncherry")) true = strLit ("Apple\nbanana\ncherry") ∧
    (insertionSortFun (sortLess true) (splitNl (strLit ("banana\nApple\ncherry")))).filter
        (fun y => lowerStr y = strLit ("apple"))
      = (splitNl (strLit ("banana\nApple\ncherry"))).filter
        (fun y => lowerStr y = strLit ("apple")) :=
  ⟨by decide,
   ((c4_sort_lines_small (strLit ("banana\nApple\ncherry")) true (by decide)).1).trans
     (by decide),
   (c4_sort_lines_small (strLit ("banana\nApple\ncherry")) true (by decide)).2.2
     (strLit ("apple"))⟩
